import Mathlib

/-!
Shallow embedding of `src/scheduling/calculate_makespan.py`: the makespan
evaluator for job-to-machine assignments, under the ordered-list policy
(`calculate_makespan`) and the dynamic-bin policy (`calculate_bin_makespan`).

Times are modelled as integers: the propagator uses only addition and order
comparisons on times, so the embedding is parametric in the numeric domain,
and the integer instance keeps every definition executable in the kernel.
Python exceptions are modelled by `Option`
(`none` = an exception escapes, `some r` = the call returns `r`).  In-place
mutation of the job list is modelled by explicit state passing: each
per-machine pass threads a `List JobResultInfo` state and updates it at the
position of the job being processed, which matches mutating the Python object
held at that position.
-/

/-- Modelled from the spec: the Job Record of the repository's `types.py`
(the module itself is not among the sources; only its fields and constructor
order are visible at the use sites): `name`, `machine`, `start_time`,
`completion_time`, and the opaque workload-size attribute `quantity`. -/
structure JobResultInfo where
  name : String
  machine : String
  start_time : ℤ
  completion_time : ℤ
  quantity : ℕ
deriving Repr, DecidableEq

/-- Modelled from the spec: the two fields of `LPInstance` (from the missing
`types.py`) that `calculate_makespan` reads: the job-name list and the
machine list of the LP model. -/
structure LPInstance where
  jobs : List String
  machines : List String
deriving Repr, DecidableEq

/-- Lookup in a Python dict built by `dict(zip(keys, vals))`: pairs are
inserted left to right, later duplicates overwrite earlier ones, missing keys
are absent (`none`). -/
def dictGet {α : Type} (keys : List String) (vals : List α) (k : String) : Option α :=
  (keys.zip vals).foldl (fun acc p => if p.1 = k then some p.2 else acc) none

/-- Modelled from the spec: `pulp.makeDict` over two key lists with default 0
(the Time Tables "default to 0 for unknown combinations"; any (job, machine)
combination absent from the table silently resolves to 0). -/
def makeDict2 (rows cols : List String) (tbl : List (List ℤ)) (r c : String) : ℤ :=
  match dictGet rows tbl r with
  | some row => (dictGet cols row c).getD 0
  | none => 0

/-- Modelled from the spec: `pulp.makeDict` over three key lists with default 0
(any (predecessor, successor, machine) combination absent from the setup-time
table silently resolves to 0). -/
def makeDict3 (ks1 ks2 ks3 : List String) (tbl : List (List (List ℤ)))
    (a b c : String) : ℤ :=
  match dictGet ks1 tbl a with
  | some t2 =>
    match dictGet ks2 t2 b with
    | some row => (dictGet ks3 row c).getD 0
    | none => 0
  | none => 0

/-- The dummy job `JobResultInfo("0", machine, 0.0, 0.0, 0)` constructed on
demand when a job has no predecessor. -/
def dummyJob (machine : String) : JobResultInfo :=
  ⟨"0", machine, 0, 0, 0⟩

/-- Python `max(jobs, key=lambda x: x.completion_time)`: first element with
the maximal key wins; raises (`none`) on an empty sequence. -/
def maxByCompletion : List JobResultInfo → Option JobResultInfo
  | [] => none
  | j :: rest =>
    some (rest.foldl (fun b x => if b.completion_time < x.completion_time then x else b) j)

/-- Python `max` over a sequence of times; raises (`none`) when empty. -/
def pyMaxQ : List ℤ → Option ℤ
  | [] => none
  | x :: rest => some (rest.foldl (fun b y => if b < y then y else b) x)

/-- `_find_last_completed(job_name, jobs, machine)`: find the job by name
(first match; `ValueError`, i.e. `none`, when absent), filter the jobs whose
completion time is at most its original start time, and return the one with
the maximum completion time, or the dummy job when none qualifies. -/
def findLastCompleted (job_name : String) (jobs : List JobResultInfo)
    (machine : String) : Option JobResultInfo :=
  match jobs.find? (fun j => j.name == job_name) with
  | none => none
  | some job =>
    let completed_before := jobs.filter (fun j => j.completion_time ≤ job.start_time)
    if completed_before.length = 0 then some (dummyJob machine)
    else maxByCompletion completed_before

/-- Stable insertion (by the time key, second component) used to model
Python's stable `sorted`: an element is placed before the first existing
element whose key is strictly greater. -/
def insertByKey (x : ℕ × ℤ) : List (ℕ × ℤ) → List (ℕ × ℤ)
  | [] => [x]
  | y :: ys => if y.2 < x.2 then y :: insertByKey x ys else x :: y :: ys

/-- Positions of `sorted(assigned_jobs, key=lambda x: x.start_time)`: the
indices of the job list, in the stable ascending order of the jobs' start
times at loop entry.  Iterating the sorted list of (shared, mutable) Python
objects is iterating the original list's positions in this order. -/
def sortedPositions (js : List JobResultInfo) : List ℕ :=
  ((js.enum.map (fun p => (p.1, p.2.start_time))).foldr insertByKey []).map (fun p => p.1)

/-- The dynamic-bin predecessor of the loop body (lines 109-114): the job with
the maximum completion time in the live job list, overridden by the dummy job
when the current job's start time is exactly 0; `none` when the live list is
empty (Python `max` raises). -/
def binPredecessor (machine : String) (state : List JobResultInfo)
    (job : JobResultInfo) : Option JobResultInfo :=
  (maxByCompletion state).map (fun mx => if job.start_time = 0 then dummyJob machine else mx)

/-- One iteration of the per-machine loop in dynamic-bin mode, acting on the
job at position `i` of the live state: resolve the predecessor against the
live state, set the job's start time to the predecessor's completion time and
its completion time to predecessor completion + processing + setup. -/
def binStep (machine : String) (p : String → String → ℤ)
    (s : String → String → String → ℤ) (state : List JobResultInfo) (i : ℕ) :
    Option (List JobResultInfo) :=
  match state[i]? with
  | none => some state
  | some job =>
    match binPredecessor machine state job with
    | none => none
    | some last_completed =>
      let job' := { job with
        start_time := last_completed.completion_time,
        completion_time := last_completed.completion_time
          + p job.name machine + s last_completed.name job.name machine }
      some (state.set i job')

/-- One iteration of the per-machine loop in ordered-list mode, acting on the
job at position `i` of the live state: resolve `_find_last_completed` against
the pre-pass snapshot `copy` (an error there, `none`, escapes), override with
the dummy job when the job's start time is 0, set the job's start time to the
live completion time of the first live job bearing the predecessor's name
(default 0), and its completion time to the snapshot predecessor's completion
+ processing + setup. -/
def orderedStep (copy : List JobResultInfo) (machine : String)
    (p : String → String → ℤ) (s : String → String → String → ℤ)
    (state : List JobResultInfo) (i : ℕ) : Option (List JobResultInfo) :=
  match state[i]? with
  | none => some state
  | some job =>
    match findLastCompleted job.name copy machine with
    | none => none
    | some found =>
      let last_completed := if job.start_time = 0 then dummyJob machine else found
      let newStart :=
        ((state.find? (fun j => last_completed.name == j.name)).map
          (fun j => j.completion_time)).getD 0
      let job' := { job with
        start_time := newStart,
        completion_time := last_completed.completion_time
          + p job.name machine + s last_completed.name job.name machine }
      some (state.set i job')

/-- Run the per-machine loop body over the listed positions, threading the
live job-list state; a raised exception (`none`) aborts the whole pass. -/
def runSteps (step : List JobResultInfo → ℕ → Option (List JobResultInfo)) :
    List ℕ → List JobResultInfo → Option (List JobResultInfo)
  | [], state => some state
  | i :: rest, state =>
    match step state i with
    | none => none
    | some state' => runSteps step rest state'

/-- The per-machine pass of `_calc_makespan` (lines 103-136): snapshot the
machine's jobs (`deepcopy`), then process the jobs in stable ascending order
of their start times at loop entry, with the ordered-list or dynamic-bin loop
body. -/
def runMachine (p : String → String → ℤ) (s : String → String → String → ℤ)
    (for_bin : Bool) (machine : String) (assigned_jobs : List JobResultInfo) :
    Option (List JobResultInfo) :=
  let copy := assigned_jobs
  runSteps
    (fun st i => if for_bin then binStep machine p s st i else orderedStep copy machine p s st i)
    (sortedPositions assigned_jobs) assigned_jobs

/-- The machine keys of the `defaultdict` grouping (lines 98-100), in
insertion order: machines in order of first appearance in the job list. -/
def machineKeys (jobs : List JobResultInfo) : List String :=
  jobs.foldl (fun acc j => if j.machine ∈ acc then acc else acc ++ [j.machine]) []

/-- The jobs assigned to machine `m`, in input order (the group the
`defaultdict` holds under key `m`). -/
def jobsOn (jobs : List JobResultInfo) (m : String) : List JobResultInfo :=
  jobs.filter (fun j => j.machine == m)

/-- The machine loop of `_calc_makespan` (lines 102-137): for each machine
key in order, run the per-machine pass, take the maximum completion time of
its jobs (Python `max`, raising on empty), and collect the per-machine
makespans together with the final per-machine job states. -/
def runMachines (p : String → String → ℤ) (s : String → String → String → ℤ)
    (for_bin : Bool) (jobs : List JobResultInfo) :
    List String → Option (List ℤ × List (List JobResultInfo))
  | [] => some ([], [])
  | m :: rest =>
    match runMachine p s for_bin m (jobsOn jobs m) with
    | none => none
    | some g =>
      match pyMaxQ (g.map (fun j => j.completion_time)) with
      | none => none
      | some v =>
        match runMachines p s for_bin jobs rest with
        | none => none
        | some (vs, gs) => some (v :: vs, g :: gs)

/-- `_calc_makespan(jobs, process_times, setup_times, job_names, machines,
for_bin)`: build the two Time Tables, group the jobs by machine, run every
machine's pass, and return the maximum of the per-machine makespans (Python
`max`, raising on an empty list). -/
def calcMakespan (jobs : List JobResultInfo) (process_times : List (List ℤ))
    (setup_times : List (List (List ℤ))) (job_names : List String)
    (machines : List String) (for_bin : Bool) : Option ℤ :=
  let s_times := makeDict3 job_names job_names machines setup_times
  let p_times := makeDict2 (job_names.drop 1) machines process_times
  match runMachines p_times s_times for_bin jobs (machineKeys jobs) with
  | none => none
  | some (makespans, _) => pyMaxQ makespans

/-- The final state of the job ledger after `_calc_makespan` mutated it in
place: the per-machine groups, concatenated machine by machine.  Regrouping
this ledger by machine recovers exactly the per-machine final states, so it
is interchangeable with the Python in-place-mutated list for any later call. -/
def finalLedger (jobs : List JobResultInfo) (process_times : List (List ℤ))
    (setup_times : List (List (List ℤ))) (job_names : List String)
    (machines : List String) (for_bin : Bool) : Option (List JobResultInfo) :=
  let s_times := makeDict3 job_names job_names machines setup_times
  let p_times := makeDict2 (job_names.drop 1) machines process_times
  match runMachines p_times s_times for_bin jobs (machineKeys jobs) with
  | none => none
  | some (_, gs) => some gs.flatten

/-- `calculate_makespan(lp_instance, jobs, process_times, setup_times)`:
the ordered-list entry point. -/
def calculate_makespan (lp_instance : LPInstance) (jobs : List JobResultInfo)
    (process_times : List (List ℤ)) (setup_times : List (List (List ℤ))) : Option ℤ :=
  calcMakespan jobs process_times setup_times lp_instance.jobs lp_instance.machines false

/-- `calculate_bin_makespan(jobs, process_times, setup_times, accelerators)`:
the dynamic-bin entry point; job names are the dummy name "0" followed by the
jobs' names, machines are the accelerator keys in insertion order. -/
def calculate_bin_makespan (jobs : List JobResultInfo)
    (process_times : List (List ℤ)) (setup_times : List (List (List ℤ)))
    (accelerators : List (String × ℕ)) : Option ℤ :=
  calcMakespan jobs process_times setup_times ("0" :: jobs.map (fun j => j.name))
    (accelerators.map (fun a => a.1)) true

/-- The completion time the ordered-list loop body assigns to `job`: the
snapshot predecessor's completion time (the dummy job when the job's start
time is 0) plus processing plus setup, all read off the snapshot `copy`.
Value 0 in the (never reached when `job ∈ copy`) error case. -/
def ordCompletion (copy : List JobResultInfo) (machine : String)
    (p : String → String → ℤ) (s : String → String → String → ℤ)
    (job : JobResultInfo) : ℤ :=
  match findLastCompleted job.name copy machine with
  | none => 0
  | some found =>
    let last_completed := if job.start_time = 0 then dummyJob machine else found
    last_completed.completion_time + p job.name machine
      + s last_completed.name job.name machine

/-- The per-machine makespan the ordered-list pass produces for machine `m`:
the maximum of the completion times the pass assigns to the jobs grouped on
`m` (0 for a machine with no jobs; that case never feeds the result). -/
def ordMachineMakespan (p : String → String → ℤ)
    (s : String → String → String → ℤ) (jobs : List JobResultInfo)
    (m : String) : ℤ :=
  (pyMaxQ ((jobsOn jobs m).map (ordCompletion (jobsOn jobs m) m p s))).getD 0

example :
    calculate_makespan ⟨["0", "A", "B"], ["M"]⟩
      [⟨"A", "M", 0, 5, 0⟩, ⟨"B", "M", 5, 10, 0⟩]
      [[5], [3]]
      [[[0], [0], [0]], [[0], [0], [2]], [[0], [0], [0]]] = some 10 := by decide

/-! ## Basic lemmas about the small helpers -/

lemma foldlMaxBy_mem (rest : List JobResultInfo) : ∀ b : JobResultInfo,
    rest.foldl (fun b x => if b.completion_time < x.completion_time then x else b) b ∈
      b :: rest := by
  induction rest with
  | nil => intro b; simp
  | cons y ys ih =>
    intro b
    simp only [List.foldl_cons]
    rcases List.mem_cons.mp (ih (if b.completion_time < y.completion_time then y else b)) with
      h | h
    · rw [h]
      by_cases hc : b.completion_time < y.completion_time
      · simp [hc]
      · simp [hc]
    · simp [h]

lemma foldlMaxBy_le (rest : List JobResultInfo) : ∀ b x : JobResultInfo, x ∈ b :: rest →
    x.completion_time ≤
      (rest.foldl (fun b x => if b.completion_time < x.completion_time then x else b)
        b).completion_time := by
  induction rest with
  | nil =>
    intro b x hx
    rw [List.mem_singleton.mp hx]
    simp
  | cons y ys ih =>
    intro b x hx
    simp only [List.foldl_cons]
    have hb : b.completion_time ≤
        (if b.completion_time < y.completion_time then y else b).completion_time := by
      by_cases hc : b.completion_time < y.completion_time
      · rw [if_pos hc]; exact le_of_lt hc
      · rw [if_neg hc]
    have hy : y.completion_time ≤
        (if b.completion_time < y.completion_time then y else b).completion_time := by
      by_cases hc : b.completion_time < y.completion_time
      · rw [if_pos hc]
      · rw [if_neg hc]; exact le_of_not_lt hc
    rcases List.mem_cons.mp hx with rfl | hx2
    · exact le_trans hb (ih _ _ (List.mem_cons_self _ _))
    rcases List.mem_cons.mp hx2 with rfl | hx3
    · exact le_trans hy (ih _ _ (List.mem_cons_self _ _))
    · exact ih _ _ (List.mem_cons.mpr (Or.inr hx3))

lemma maxByCompletion_spec {l : List JobResultInfo} (hl : l ≠ []) :
    ∃ r, maxByCompletion l = some r ∧ r ∈ l ∧
      ∀ x ∈ l, x.completion_time ≤ r.completion_time := by
  match l, hl with
  | j :: rest, _ =>
    exact ⟨_, rfl, foldlMaxBy_mem rest j, fun x hx => foldlMaxBy_le rest j x hx⟩

lemma maxByCompletion_perm {l₁ l₂ : List JobResultInfo} (h : l₁.Perm l₂)
    (hnd : (l₁.map (fun j => j.completion_time)).Nodup) :
    maxByCompletion l₁ = maxByCompletion l₂ := by
  by_cases h1 : l₁ = []
  · subst h1
    rw [h.nil_eq.symm]
  · have h2 : l₂ ≠ [] := by
      intro e
      exact h1 (by simpa [e] using h.length_eq)
    obtain ⟨r₁, e₁, m₁, b₁⟩ := maxByCompletion_spec h1
    obtain ⟨r₂, e₂, m₂, b₂⟩ := maxByCompletion_spec h2
    have hc : r₁.completion_time = r₂.completion_time :=
      le_antisymm (b₂ r₁ (h.mem_iff.mp m₁)) (b₁ r₂ (h.mem_iff.mpr m₂))
    rw [e₁, e₂, List.inj_on_of_nodup_map hnd m₁ (h.mem_iff.mpr m₂) hc]

lemma foldlMaxZ_mem (rest : List ℤ) : ∀ b : ℤ,
    rest.foldl (fun b y => if b < y then y else b) b ∈ b :: rest := by
  induction rest with
  | nil => intro b; simp
  | cons y ys ih =>
    intro b
    simp only [List.foldl_cons]
    rcases List.mem_cons.mp (ih (if b < y then y else b)) with h | h
    · rw [h]
      by_cases hc : b < y
      · simp [hc]
      · simp [hc]
    · simp [h]

lemma foldlMaxZ_le (rest : List ℤ) : ∀ b x : ℤ, x ∈ b :: rest →
    x ≤ rest.foldl (fun b y => if b < y then y else b) b := by
  induction rest with
  | nil =>
    intro b x hx
    rw [List.mem_singleton.mp hx]
    simp
  | cons y ys ih =>
    intro b x hx
    simp only [List.foldl_cons]
    have hb : b ≤ if b < y then y else b := by
      by_cases hc : b < y
      · rw [if_pos hc]; exact le_of_lt hc
      · rw [if_neg hc]
    have hy : y ≤ if b < y then y else b := by
      by_cases hc : b < y
      · rw [if_pos hc]
      · rw [if_neg hc]; exact le_of_not_lt hc
    rcases List.mem_cons.mp hx with rfl | hx2
    · exact le_trans hb (ih _ _ (List.mem_cons_self _ _))
    rcases List.mem_cons.mp hx2 with rfl | hx3
    · exact le_trans hy (ih _ _ (List.mem_cons_self _ _))
    · exact ih _ _ (List.mem_cons.mpr (Or.inr hx3))

lemma pyMaxQ_spec {l : List ℤ} (hl : l ≠ []) :
    ∃ r, pyMaxQ l = some r ∧ r ∈ l ∧ ∀ x ∈ l, x ≤ r := by
  match l, hl with
  | x :: rest, _ =>
    exact ⟨_, rfl, foldlMaxZ_mem rest x, fun y hy => foldlMaxZ_le rest x y hy⟩

lemma pyMaxQ_eq_none_iff {l : List ℤ} : pyMaxQ l = none ↔ l = [] := by
  cases l with
  | nil => simp [pyMaxQ]
  | cons x rest => simp [pyMaxQ]

lemma pyMaxQ_perm {l₁ l₂ : List ℤ} (h : l₁.Perm l₂) : pyMaxQ l₁ = pyMaxQ l₂ := by
  by_cases h1 : l₁ = []
  · subst h1
    rw [h.nil_eq.symm]
  · have h2 : l₂ ≠ [] := by
      intro e
      exact h1 (by simpa [e] using h.length_eq)
    obtain ⟨r₁, e₁, m₁, b₁⟩ := pyMaxQ_spec h1
    obtain ⟨r₂, e₂, m₂, b₂⟩ := pyMaxQ_spec h2
    rw [e₁, e₂,
      le_antisymm (b₂ r₁ (h.mem_iff.mp m₁)) (b₁ r₂ (h.mem_iff.mpr m₂))]

lemma foldlDict_const {α : Type} (l : List (String × α)) (k : String) :
    ∀ acc : Option α, (∀ p ∈ l, p.1 ≠ k) →
      l.foldl (fun acc p => if p.1 = k then some p.2 else acc) acc = acc := by
  induction l with
  | nil => intro acc _; rfl
  | cons q l ih =>
    intro acc hk
    simp only [List.foldl_cons]
    rw [if_neg (hk q (List.mem_cons_self q l))]
    exact ih acc fun p hp => hk p (List.mem_cons.mpr (Or.inr hp))

lemma dictGet_eq_none {α : Type} {keys : List String} {vals : List α} {k : String}
    (h : k ∉ keys) : dictGet keys vals k = none := by
  unfold dictGet
  exact foldlDict_const _ k none fun p hp hk => h (hk ▸ (List.of_mem_zip hp).1)

lemma foldlDict_some {α : Type} (l : List (String × α)) (k : String) :
    ∀ (acc : Option α) (v : α),
      l.foldl (fun acc p => if p.1 = k then some p.2 else acc) acc = some v →
      acc = some v ∨ ∃ p ∈ l, p.2 = v := by
  induction l with
  | nil => intro acc v h; exact Or.inl h
  | cons q l ih =>
    intro acc v h
    simp only [List.foldl_cons] at h
    rcases ih _ v h with h1 | ⟨p, hp, hv⟩
    · by_cases hq : q.1 = k
      · rw [if_pos hq] at h1
        exact Or.inr ⟨q, List.mem_cons_self q l, by injection h1⟩
      · rw [if_neg hq] at h1
        exact Or.inl h1
    · exact Or.inr ⟨p, List.mem_cons.mpr (Or.inr hp), hv⟩

lemma dictGet_mem {α : Type} {keys : List String} {vals : List α} {k : String} {v : α}
    (h : dictGet keys vals k = some v) : v ∈ vals := by
  unfold dictGet at h
  rcases foldlDict_some _ k none v h with h1 | ⟨p, hp, hv⟩
  · cases h1
  · exact hv ▸ (List.of_mem_zip hp).2

/-! ## The processing order is a permutation of the positions -/

lemma insertByKey_perm (x : ℕ × ℤ) (l : List (ℕ × ℤ)) : (insertByKey x l).Perm (x :: l) := by
  induction l with
  | nil => exact List.Perm.refl _
  | cons y ys ih =>
    unfold insertByKey
    by_cases hc : y.2 < x.2
    · rw [if_pos hc]
      exact (ih.cons y).trans (List.Perm.swap x y ys)
    · rw [if_neg hc]

lemma foldrInsert_perm (l : List (ℕ × ℤ)) : (l.foldr insertByKey []).Perm l := by
  induction l with
  | nil => exact List.Perm.refl _
  | cons x xs ih =>
    simp only [List.foldr_cons]
    exact (insertByKey_perm x _).trans (ih.cons x)

lemma sortedPositions_perm (js : List JobResultInfo) :
    (sortedPositions js).Perm (List.range js.length) := by
  unfold sortedPositions
  have h2 := (foldrInsert_perm (js.enum.map (fun p => (p.1, p.2.start_time)))).map
    (fun p : ℕ × ℤ => p.1)
  have h3 : (js.enum.map (fun p : ℕ × JobResultInfo => (p.1, p.2.start_time))).map
      (fun p : ℕ × ℤ => p.1) = js.enum.map Prod.fst := by
    rw [List.map_map]
    rfl
  rw [h3] at h2
  have h4 : js.enum.map Prod.fst = List.range js.length := by
    rw [List.enum_eq_enumFrom, List.enumFrom_map_fst, List.range_eq_range']
  rw [h4] at h2
  exact h2

lemma sortedPositions_nodup (js : List JobResultInfo) : (sortedPositions js).Nodup :=
  (sortedPositions_perm js).nodup_iff.mpr (List.nodup_range js.length)

lemma sortedPositions_mem {js : List JobResultInfo} {i : ℕ} :
    i ∈ sortedPositions js ↔ i < js.length := by
  rw [(sortedPositions_perm js).mem_iff, List.mem_range]

/-! ## Machine grouping -/

lemma foldlKeys_mem (l : List JobResultInfo) : ∀ (acc : List String) (x : String),
    x ∈ l.foldl (fun acc j => if j.machine ∈ acc then acc else acc ++ [j.machine]) acc ↔
      x ∈ acc ∨ ∃ j ∈ l, j.machine = x := by
  induction l with
  | nil => intro acc x; simp
  | cons j l ih =>
    intro acc x
    simp only [List.foldl_cons]
    rw [ih]
    have haux : x ∈ (if j.machine ∈ acc then acc else acc ++ [j.machine]) ↔
        x ∈ acc ∨ j.machine = x := by
      by_cases hj : j.machine ∈ acc
      · rw [if_pos hj]
        exact ⟨Or.inl, fun h => h.elim id (fun e => e ▸ hj)⟩
      · rw [if_neg hj]
        simp [List.mem_append, eq_comm]
    rw [haux]
    simp only [List.mem_cons]
    constructor
    · rintro ((h | h) | ⟨j', hj', e⟩)
      · exact Or.inl h
      · exact Or.inr ⟨j, Or.inl rfl, h⟩
      · exact Or.inr ⟨j', Or.inr hj', e⟩
    · rintro (h | ⟨j', (rfl | hj'), e⟩)
      · exact Or.inl (Or.inl h)
      · exact Or.inl (Or.inr e)
      · exact Or.inr ⟨j', hj', e⟩

lemma machineKeys_mem {jobs : List JobResultInfo} {x : String} :
    x ∈ machineKeys jobs ↔ ∃ j ∈ jobs, j.machine = x := by
  unfold machineKeys
  rw [foldlKeys_mem]
  simp

lemma foldlKeys_nodup (l : List JobResultInfo) : ∀ acc : List String, acc.Nodup →
    (l.foldl (fun acc j => if j.machine ∈ acc then acc else acc ++ [j.machine]) acc).Nodup := by
  induction l with
  | nil => intro acc h; exact h
  | cons j l ih =>
    intro acc h
    simp only [List.foldl_cons]
    by_cases hj : j.machine ∈ acc
    · rw [if_pos hj]; exact ih acc h
    · rw [if_neg hj]
      refine ih _ ?_
      simp [List.nodup_append, h, hj]

lemma machineKeys_nodup (jobs : List JobResultInfo) : (machineKeys jobs).Nodup :=
  foldlKeys_nodup jobs [] List.nodup_nil

lemma jobsOn_machine {jobs : List JobResultInfo} {m : String} {j : JobResultInfo}
    (h : j ∈ jobsOn jobs m) : j.machine = m ∧ j ∈ jobs := by
  unfold jobsOn at h
  have := List.mem_filter.mp h
  exact ⟨by simpa using this.2, this.1⟩

lemma jobsOn_ne_nil {jobs : List JobResultInfo} {m : String} (h : m ∈ machineKeys jobs) :
    jobsOn jobs m ≠ [] := by
  obtain ⟨j, hj, e⟩ := machineKeys_mem.mp h
  intro hnil
  rw [jobsOn, List.filter_eq_nil_iff] at hnil
  exact hnil j hj (by simp [e])

/-! ## `_find_last_completed` helpers -/

lemma findLastCompleted_isSome_of_mem {j : JobResultInfo} {js : List JobResultInfo}
    (hj : j ∈ js) (m : String) : ∃ r, findLastCompleted j.name js m = some r := by
  unfold findLastCompleted
  have hfind : (js.find? (fun x => x.name == j.name)).isSome :=
    List.find?_isSome.mpr ⟨j, hj, by simp⟩
  obtain ⟨a, ha⟩ := Option.isSome_iff_exists.mp hfind
  rw [ha]
  dsimp only
  by_cases hc : (js.filter (fun x => x.completion_time ≤ a.start_time)).length = 0
  · exact ⟨_, by rw [if_pos hc]⟩
  · rw [if_neg hc]
    have hne : js.filter (fun x => x.completion_time ≤ a.start_time) ≠ [] := by
      intro e; exact hc (by rw [e]; rfl)
    obtain ⟨r, hr, _⟩ := maxByCompletion_spec hne
    exact ⟨r, hr⟩

lemma findLastCompleted_eq_some {n : String} {js : List JobResultInfo} {m : String}
    {r : JobResultInfo} (h : findLastCompleted n js m = some r) :
    r = dummyJob m ∨ r ∈ js := by
  unfold findLastCompleted at h
  cases hf : js.find? (fun x => x.name == n) with
  | none => rw [hf] at h; cases h
  | some job =>
    rw [hf] at h
    dsimp only at h
    by_cases hc : (js.filter (fun x => x.completion_time ≤ job.start_time)).length = 0
    · rw [if_pos hc] at h
      injection h with h'
      exact Or.inl h'.symm
    · rw [if_neg hc] at h
      have hne : js.filter (fun x => x.completion_time ≤ job.start_time) ≠ [] := by
        intro e; exact hc (by rw [e]; rfl)
      obtain ⟨r', hr', hm', _⟩ := maxByCompletion_spec hne
      rw [hr'] at h
      injection h with h'
      exact Or.inr (h' ▸ (List.mem_filter.mp hm').1)

/-! ## Shapes of the two loop bodies -/

lemma orderedStep_skip {js state : List JobResultInfo} {m : String}
    {p : String → String → ℤ} {s : String → String → String → ℤ} {i : ℕ}
    (h : state[i]? = none) : orderedStep js m p s state i = some state := by
  simp [orderedStep, h]

lemma orderedStep_some {js state : List JobResultInfo} {m : String}
    {p : String → String → ℤ} {s : String → String → String → ℤ} {i : ℕ}
    {job found : JobResultInfo} (hs0 : state[i]? = some job)
    (hfound : findLastCompleted job.name js m = some found) :
    ∃ job', orderedStep js m p s state i = some (state.set i job') ∧
      job'.name = job.name ∧ job'.machine = job.machine ∧
      job'.quantity = job.quantity ∧
      job'.completion_time = ordCompletion js m p s job ∧
      job'.start_time = ((state.find? (fun j =>
        (if job.start_time = 0 then dummyJob m else found).name == j.name)).map
        (fun j => j.completion_time)).getD 0 := by
  refine ⟨{ job with
      start_time := ((state.find? (fun j =>
        (if job.start_time = 0 then dummyJob m else found).name == j.name)).map
        (fun j => j.completion_time)).getD 0,
      completion_time := (if job.start_time = 0 then dummyJob m else found).completion_time
        + p job.name m
        + s (if job.start_time = 0 then dummyJob m else found).name job.name m },
    ?_, rfl, rfl, rfl, ?_, rfl⟩
  · simp only [orderedStep, hs0, hfound]
  · simp only [ordCompletion, hfound]

lemma binStep_skip {state : List JobResultInfo} {m : String}
    {p : String → String → ℤ} {s : String → String → String → ℤ} {i : ℕ}
    (h : state[i]? = none) : binStep m p s state i = some state := by
  simp [binStep, h]

lemma binStep_some {state : List JobResultInfo} {m : String}
    {p : String → String → ℤ} {s : String → String → String → ℤ} {i : ℕ}
    {job mx : JobResultInfo} (hs0 : state[i]? = some job)
    (hmx : maxByCompletion state = some mx) :
    binStep m p s state i = some (state.set i
      { job with
        start_time := (if job.start_time = 0 then dummyJob m else mx).completion_time,
        completion_time := (if job.start_time = 0 then dummyJob m else mx).completion_time
          + p job.name m
          + s (if job.start_time = 0 then dummyJob m else mx).name job.name m }) := by
  simp only [binStep, binPredecessor, hs0, hmx]
  rfl

/-! ## Characterization of the ordered-list pass

In ordered-list mode each job's final completion time is a function of the
snapshot only, independent of the processing order and of the live state. -/

lemma runSteps_ordered_char (js : List JobResultInfo) (m : String)
    (p : String → String → ℤ) (s : String → String → String → ℤ) :
    ∀ (ps : List ℕ) (state : List JobResultInfo),
      ps.Nodup →
      state.length = js.length →
      (∀ i ∈ ps, state[i]? = js[i]?) →
      (∀ i : ℕ, (state[i]?).map (fun j => j.name) = (js[i]?).map (fun j => j.name)) →
      ∃ final, runSteps (orderedStep js m p s) ps state = some final ∧
        final.length = js.length ∧
        (∀ i : ℕ, (final[i]?).map (fun j => j.name) = (js[i]?).map (fun j => j.name)) ∧
        (∀ i : ℕ, (final[i]?).map (fun j => j.machine) =
          (state[i]?).map (fun j => j.machine)) ∧
        (∀ i ∈ ps, (final[i]?).map (fun j => j.completion_time) =
          (js[i]?).map (fun j => ordCompletion js m p s j)) ∧
        (∀ i : ℕ, i ∉ ps → (final[i]?).map (fun j => j.completion_time) =
          (state[i]?).map (fun j => j.completion_time)) := by
  intro ps
  induction ps with
  | nil =>
    intro state _ hlen _ hnames
    exact ⟨state, rfl, hlen, hnames, fun i => rfl,
      fun i hi => absurd hi (List.not_mem_nil i), fun i _ => rfl⟩
  | cons i₀ rest ih =>
    intro state hnd hlen hunproc hnames
    have hndr : rest.Nodup := (List.nodup_cons.mp hnd).2
    have hni : i₀ ∉ rest := (List.nodup_cons.mp hnd).1
    cases hs0 : state[i₀]? with
    | none =>
      have hj0 : js[i₀]? = none := by
        have h := hunproc i₀ (List.mem_cons_self i₀ rest)
        rw [hs0] at h
        exact h.symm
      obtain ⟨final, hrun, hlen2, hn2, hm2, hproc2, hun2⟩ :=
        ih state hndr hlen (fun i hi => hunproc i (List.mem_cons_of_mem i₀ hi)) hnames
      refine ⟨final, ?_, hlen2, hn2, hm2, ?_, ?_⟩
      · show runSteps _ (i₀ :: rest) state = some final
        unfold runSteps
        rw [orderedStep_skip hs0]
        exact hrun
      · intro i hi
        rcases List.mem_cons.mp hi with rfl | hi2
        · rw [hun2 i hni, hs0, hj0]
          rfl
        · exact hproc2 i hi2
      · intro i hi
        exact hun2 i fun h => hi (List.mem_cons_of_mem i₀ h)
    | some job =>
      have hj0 : js[i₀]? = some job := by
        have h := hunproc i₀ (List.mem_cons_self i₀ rest)
        rw [hs0] at h
        exact h.symm
      obtain ⟨hlt, _⟩ := List.getElem?_eq_some_iff.mp hs0
      obtain ⟨found, hfound⟩ := findLastCompleted_isSome_of_mem (List.getElem?_mem hj0) m
      obtain ⟨job', hstep, hname', hmach', hqty', hcomp', hstart'⟩ :=
        orderedStep_some hs0 hfound
      have hlen1 : (state.set i₀ job').length = js.length := by
        rw [List.length_set]
        exact hlen
      have hunproc1 : ∀ i ∈ rest, (state.set i₀ job')[i]? = js[i]? := by
        intro i hi
        have hne : i₀ ≠ i := fun e => hni (e ▸ hi)
        rw [List.getElem?_set_ne hne]
        exact hunproc i (List.mem_cons_of_mem i₀ hi)
      have hnames1 : ∀ i : ℕ, ((state.set i₀ job')[i]?).map (fun j => j.name) =
          (js[i]?).map (fun j => j.name) := by
        intro i
        by_cases he : i₀ = i
        · subst he
          rw [List.getElem?_set_self hlt, hj0]
          simp [hname']
        · rw [List.getElem?_set_ne he]
          exact hnames i
      obtain ⟨final, hrun2, hlen2, hn2, hm2, hproc2, hun2⟩ :=
        ih (state.set i₀ job') hndr hlen1 hunproc1 hnames1
      refine ⟨final, ?_, hlen2, hn2, ?_, ?_, ?_⟩
      · show runSteps _ (i₀ :: rest) state = some final
        unfold runSteps
        rw [hstep]
        exact hrun2
      · intro i
        rw [hm2 i]
        by_cases he : i₀ = i
        · subst he
          rw [List.getElem?_set_self hlt, hs0]
          simp [hmach']
        · rw [List.getElem?_set_ne he]
      · intro i hi
        rcases List.mem_cons.mp hi with rfl | hi2
        · rw [hun2 i hni, List.getElem?_set_self hlt, hj0]
          simp [hcomp']
        · exact hproc2 i hi2
      · intro i hi
        have hi2 : i ∉ rest := fun h => hi (List.mem_cons_of_mem i₀ h)
        have hne : i₀ ≠ i := fun e => hi (e ▸ List.mem_cons_self i₀ rest)
        rw [hun2 i hi2, List.getElem?_set_ne hne]

lemma runMachine_ordered (p : String → String → ℤ) (s : String → String → String → ℤ)
    (m : String) (js : List JobResultInfo) :
    ∃ final, runMachine p s false m js = some final ∧
      final.length = js.length ∧
      (∀ i : ℕ, (final[i]?).map (fun j => j.name) = (js[i]?).map (fun j => j.name)) ∧
      (∀ i : ℕ, (final[i]?).map (fun j => j.machine) = (js[i]?).map (fun j => j.machine)) ∧
      final.map (fun j => j.completion_time) =
        js.map (fun j => ordCompletion js m p s j) := by
  obtain ⟨final, hrun, hlen, hn, hm, hproc, hun⟩ :=
    runSteps_ordered_char js m p s (sortedPositions js) js (sortedPositions_nodup js) rfl
      (fun i _ => rfl) (fun i => rfl)
  refine ⟨final, ?_, hlen, hn, hm, ?_⟩
  · exact hrun
  · apply List.ext_getElem?
    intro i
    rw [List.getElem?_map, List.getElem?_map]
    by_cases hi : i < js.length
    · exact hproc i (sortedPositions_mem.mpr hi)
    · have h1 : js[i]? = none := List.getElem?_eq_none (le_of_not_lt hi)
      have h2 : final[i]? = none := List.getElem?_eq_none (by rw [hlen]; exact le_of_not_lt hi)
      rw [h1, h2]
      rfl

lemma runMachines_ordered (p : String → String → ℤ) (s : String → String → String → ℤ)
    (jobs : List JobResultInfo) :
    ∀ ks : List String, (∀ m ∈ ks, jobsOn jobs m ≠ []) →
      ∃ gs, runMachines p s false jobs ks =
        some (ks.map (fun m => ordMachineMakespan p s jobs m), gs) ∧
        ∀ g ∈ gs, ∃ m ∈ ks, g.map (fun j => j.completion_time) =
          (jobsOn jobs m).map (fun j => ordCompletion (jobsOn jobs m) m p s j) := by
  intro ks
  induction ks with
  | nil => intro _; exact ⟨[], rfl, fun g hg => absurd hg (List.not_mem_nil g)⟩
  | cons m ks ih =>
    intro hne
    obtain ⟨final, hrun, hlen, hn, hm, hcomp⟩ := runMachine_ordered p s m (jobsOn jobs m)
    have hne0 : jobsOn jobs m ≠ [] := hne m (List.mem_cons_self m ks)
    have hmapne : (jobsOn jobs m).map (fun j => ordCompletion (jobsOn jobs m) m p s j) ≠ [] := by
      simpa using hne0
    obtain ⟨v, hv, hvmem, hvb⟩ := pyMaxQ_spec hmapne
    obtain ⟨gs, hgs, hgmem⟩ := ih fun m' hm' => hne m' (List.mem_cons_of_mem _ hm')
    refine ⟨final :: gs, ?_, ?_⟩
    · have hval : ordMachineMakespan p s jobs m = v := by
        unfold ordMachineMakespan
        rw [hv]
        rfl
      simp only [runMachines, hrun, hcomp, hv, hgs, List.map_cons, hval]
    · intro g hg
      rcases List.mem_cons.mp hg with rfl | hg2
      · exact ⟨m, List.mem_cons_self m ks, hcomp⟩
      · obtain ⟨m', hm', he⟩ := hgmem g hg2
        exact ⟨m', List.mem_cons_of_mem _ hm', he⟩

lemma calcMakespan_ordered_eq (jobs : List JobResultInfo) (pt : List (List ℤ))
    (st : List (List (List ℤ))) (job_names machines : List String) :
    calcMakespan jobs pt st job_names machines false =
      pyMaxQ ((machineKeys jobs).map
        (ordMachineMakespan (makeDict2 (job_names.drop 1) machines pt)
          (makeDict3 job_names job_names machines st) jobs)) := by
  obtain ⟨gs, hgs⟩ := runMachines_ordered (makeDict2 (job_names.drop 1) machines pt)
    (makeDict3 job_names job_names machines st) jobs (machineKeys jobs)
    (fun m hm => jobsOn_ne_nil hm)
  simp only [calcMakespan, hgs]

/-! ## Permutation invariance of the ordered-list pass, given distinct names
and distinct input completion times on each machine -/

lemma find?_name_perm {l₁ l₂ : List JobResultInfo} (h : l₁.Perm l₂)
    (hnd : (l₁.map (fun j => j.name)).Nodup) (n : String) :
    l₂.find? (fun j => j.name == n) = l₁.find? (fun j => j.name == n) := by
  cases h₁ : l₁.find? (fun j => j.name == n) with
  | none =>
    refine List.find?_eq_none.mpr ?_
    intro x hx
    exact List.find?_eq_none.mp h₁ x (h.mem_iff.mpr hx)
  | some a =>
    have ha1 : a ∈ l₁ := List.mem_of_find?_eq_some h₁
    have han : a.name = n := by simpa using List.find?_some h₁
    cases h₂ : l₂.find? (fun j => j.name == n) with
    | none =>
      exact absurd (List.find?_eq_none.mp h₂ a (h.mem_iff.mp ha1)) (by simp [han])
    | some b =>
      have hb1 : b ∈ l₁ := h.mem_iff.mpr (List.mem_of_find?_eq_some h₂)
      have hbn : b.name = n := by simpa using List.find?_some h₂
      rw [List.inj_on_of_nodup_map hnd hb1 ha1 (by rw [han, hbn])]

lemma findLastCompleted_perm {l₁ l₂ : List JobResultInfo} (h : l₁.Perm l₂)
    (hnd : (l₁.map (fun j => j.name)).Nodup)
    (hcd : (l₁.map (fun j => j.completion_time)).Nodup) (n m : String) :
    findLastCompleted n l₂ m = findLastCompleted n l₁ m := by
  unfold findLastCompleted
  rw [find?_name_perm h hnd n]
  cases hf : l₁.find? (fun j => j.name == n) with
  | none => rfl
  | some job =>
    dsimp only
    have hfp : (l₂.filter (fun j => j.completion_time ≤ job.start_time)).Perm
        (l₁.filter (fun j => j.completion_time ≤ job.start_time)) := h.symm.filter _
    by_cases hc : (l₁.filter (fun j => j.completion_time ≤ job.start_time)).length = 0
    · rw [if_pos hc, if_pos (by rw [hfp.length_eq]; exact hc)]
    · rw [if_neg hc, if_neg (by rw [hfp.length_eq]; exact hc)]
      have hnd2 : ((l₂.filter (fun j => j.completion_time ≤ job.start_time)).map
          (fun j => j.completion_time)).Nodup := by
        refine (hfp.map (fun j => j.completion_time)).nodup_iff.mpr ?_
        exact List.Nodup.sublist ((List.filter_sublist l₁).map _) hcd
      exact maxByCompletion_perm hfp hnd2

lemma ordCompletion_perm {l₁ l₂ : List JobResultInfo} (h : l₁.Perm l₂)
    (hnd : (l₁.map (fun j => j.name)).Nodup)
    (hcd : (l₁.map (fun j => j.completion_time)).Nodup) (m : String)
    (p : String → String → ℤ) (s : String → String → String → ℤ)
    (job : JobResultInfo) :
    ordCompletion l₂ m p s job = ordCompletion l₁ m p s job := by
  unfold ordCompletion
  rw [findLastCompleted_perm h hnd hcd job.name m]

lemma ordMachineMakespan_perm {jobs₁ jobs₂ : List JobResultInfo} (h : jobs₁.Perm jobs₂)
    (hnd : ∀ m : String, ((jobsOn jobs₁ m).map (fun j => j.name)).Nodup)
    (hcd : ∀ m : String, ((jobsOn jobs₁ m).map (fun j => j.completion_time)).Nodup)
    (p : String → String → ℤ) (s : String → String → String → ℤ) (m : String) :
    ordMachineMakespan p s jobs₂ m = ordMachineMakespan p s jobs₁ m := by
  have hperm : (jobsOn jobs₁ m).Perm (jobsOn jobs₂ m) := h.filter _
  unfold ordMachineMakespan
  rw [List.map_congr_left fun j _ =>
    ordCompletion_perm hperm (hnd m) (hcd m) m p s j]
  rw [pyMaxQ_perm ((hperm.map (ordCompletion (jobsOn jobs₁ m) m p s)).symm)]

lemma machineKeys_perm {jobs₁ jobs₂ : List JobResultInfo} (h : jobs₁.Perm jobs₂) :
    (machineKeys jobs₁).Perm (machineKeys jobs₂) := by
  rw [List.perm_ext_iff_of_nodup (machineKeys_nodup _) (machineKeys_nodup _)]
  intro m
  rw [machineKeys_mem, machineKeys_mem]
  constructor
  · rintro ⟨j, hj, e⟩
    exact ⟨j, h.mem_iff.mp hj, e⟩
  · rintro ⟨j, hj, e⟩
    exact ⟨j, h.mem_iff.mpr hj, e⟩

/-! ## All-zero Time Tables -/

lemma makeDict2_zero {rows cols : List String} {tbl : List (List ℤ)}
    (hz : ∀ row ∈ tbl, ∀ x ∈ row, x = 0) (r c : String) :
    makeDict2 rows cols tbl r c = 0 := by
  unfold makeDict2
  cases hr : dictGet rows tbl r with
  | none => rfl
  | some row =>
    dsimp only
    cases hc : dictGet cols row c with
    | none => rfl
    | some x =>
      simp only [Option.getD_some]
      exact hz row (dictGet_mem hr) x (dictGet_mem hc)

lemma makeDict3_zero {ks1 ks2 ks3 : List String} {tbl : List (List (List ℤ))}
    (hz : ∀ t2 ∈ tbl, ∀ row ∈ t2, ∀ x ∈ row, x = 0) (a b c : String) :
    makeDict3 ks1 ks2 ks3 tbl a b c = 0 := by
  unfold makeDict3
  cases ha : dictGet ks1 tbl a with
  | none => rfl
  | some t2 =>
    dsimp only
    cases hb : dictGet ks2 t2 b with
    | none => rfl
    | some row =>
      dsimp only
      cases hc : dictGet ks3 row c with
      | none => rfl
      | some x =>
        simp only [Option.getD_some]
        exact hz t2 (dictGet_mem ha) row (dictGet_mem hb) x (dictGet_mem hc)

lemma ordCompletion_zero {js : List JobResultInfo} {m : String}
    {p : String → String → ℤ} {s : String → String → String → ℤ}
    (hp : ∀ a b, p a b = 0) (hs : ∀ a b c, s a b c = 0)
    (hjz : ∀ j ∈ js, j.completion_time = 0) (job : JobResultInfo) :
    ordCompletion js m p s job = 0 := by
  unfold ordCompletion
  cases hf : findLastCompleted job.name js m with
  | none => rfl
  | some found =>
    dsimp only
    have hlc : (if job.start_time = 0 then dummyJob m else found).completion_time = 0 := by
      by_cases h0 : job.start_time = 0
      · rw [if_pos h0]
        rfl
      · rw [if_neg h0]
        rcases findLastCompleted_eq_some hf with rfl | hmem
        · rfl
        · exact hjz found hmem
    rw [hlc, hp, hs]
    simp

lemma pyMaxQ_const_zero {l : List ℤ} (hl : l ≠ []) (hz : ∀ x ∈ l, x = 0) :
    pyMaxQ l = some 0 := by
  obtain ⟨r, hr, hrm, _⟩ := pyMaxQ_spec hl
  rw [hr, hz r hrm]

lemma runSteps_bin_zero (m : String) {p : String → String → ℤ}
    {s : String → String → String → ℤ}
    (hp : ∀ a b, p a b = 0) (hs : ∀ a b c, s a b c = 0) :
    ∀ (ps : List ℕ) (state : List JobResultInfo),
      (∀ j ∈ state, j.completion_time = 0) →
      ∃ final, runSteps (binStep m p s) ps state = some final ∧
        final.length = state.length ∧ ∀ j ∈ final, j.completion_time = 0 := by
  intro ps
  induction ps with
  | nil => intro state hz; exact ⟨state, rfl, rfl, hz⟩
  | cons i₀ rest ih =>
    intro state hz
    cases hs0 : state[i₀]? with
    | none =>
      obtain ⟨final, hrun, hlen, hzf⟩ := ih state hz
      refine ⟨final, ?_, hlen, hzf⟩
      unfold runSteps
      rw [binStep_skip hs0]
      exact hrun
    | some job =>
      have hne : state ≠ [] := by
        intro e
        rw [e] at hs0
        cases hs0
      obtain ⟨mx, hmx, hmxmem, _⟩ := maxByCompletion_spec hne
      have hlcz : (if job.start_time = 0 then dummyJob m else mx).completion_time = 0 := by
        by_cases h0 : job.start_time = 0
        · rw [if_pos h0]
          rfl
        · rw [if_neg h0]
          exact hz mx hmxmem
      have hz2 : ∀ j ∈ state.set i₀
          { job with
            start_time := (if job.start_time = 0 then dummyJob m else mx).completion_time,
            completion_time := (if job.start_time = 0 then dummyJob m else mx).completion_time
              + p job.name m
              + s (if job.start_time = 0 then dummyJob m else mx).name job.name m },
          j.completion_time = 0 := by
        intro j hj
        rcases List.mem_or_eq_of_mem_set hj with hj1 | rfl
        · exact hz j hj1
        · simp [hlcz, hp, hs]
      obtain ⟨final, hrun, hlen, hzf⟩ := ih _ hz2
      refine ⟨final, ?_, ?_, hzf⟩
      · unfold runSteps
        rw [binStep_some hs0 hmx]
        exact hrun
      · rw [hlen, List.length_set]

lemma runMachines_bin_zero {p : String → String → ℤ} {s : String → String → String → ℤ}
    (jobs : List JobResultInfo)
    (hp : ∀ a b, p a b = 0) (hs : ∀ a b c, s a b c = 0)
    (hz : ∀ j ∈ jobs, j.completion_time = 0) :
    ∀ ks : List String, (∀ m ∈ ks, jobsOn jobs m ≠ []) →
      ∃ gs, runMachines p s true jobs ks = some (ks.map (fun _ => (0 : ℤ)), gs) ∧
        ∀ g ∈ gs, ∀ j ∈ g, j.completion_time = 0 := by
  intro ks
  induction ks with
  | nil => intro _; exact ⟨[], rfl, fun g hg => absurd hg (List.not_mem_nil g)⟩
  | cons m ks ih =>
    intro hne
    have hgz : ∀ j ∈ jobsOn jobs m, j.completion_time = 0 := fun j hj =>
      hz j (jobsOn_machine hj).2
    obtain ⟨final, hrun, hlen, hzf⟩ :=
      runSteps_bin_zero m hp hs (sortedPositions (jobsOn jobs m)) (jobsOn jobs m) hgz
    have hfne : final ≠ [] := by
      intro e
      apply hne m (List.mem_cons_self m ks)
      have := hlen
      rw [e] at this
      exact List.eq_nil_of_length_eq_zero this.symm
    have hmz : pyMaxQ (final.map (fun j => j.completion_time)) = some 0 := by
      refine pyMaxQ_const_zero (by simpa using hfne) ?_
      intro x hx
      obtain ⟨j, hj, e⟩ := List.mem_map.mp hx
      rw [← e]
      exact hzf j hj
    obtain ⟨gs, hgs, hgsz⟩ := ih fun m' hm' => hne m' (List.mem_cons_of_mem _ hm')
    refine ⟨final :: gs, ?_, ?_⟩
    · have hrm : runMachine p s true m (jobsOn jobs m) = some final := hrun
      simp only [runMachines, hrm, hmz, hgs, List.map_cons]
    · intro g hg
      rcases List.mem_cons.mp hg with rfl | hg2
      · exact hzf
      · exact hgsz g hg2

lemma machineKeys_ne_nil {jobs : List JobResultInfo} (h : jobs ≠ []) :
    machineKeys jobs ≠ [] := by
  match jobs, h with
  | j :: rest, _ =>
    intro e
    have hm : j.machine ∈ machineKeys (j :: rest) :=
      machineKeys_mem.mpr ⟨j, List.mem_cons_self j rest, rfl⟩
    rw [e] at hm
    exact List.not_mem_nil _ hm

lemma calcMakespan_zero_tables {jobs : List JobResultInfo} {pt : List (List ℤ)}
    {st : List (List (List ℤ))} {job_names machines : List String}
    (hpt : ∀ row ∈ pt, ∀ x ∈ row, x = 0)
    (hst : ∀ t2 ∈ st, ∀ row ∈ t2, ∀ x ∈ row, x = 0)
    (hjz : ∀ j ∈ jobs, j.completion_time = 0) (hne : jobs ≠ []) (b : Bool) :
    calcMakespan jobs pt st job_names machines b = some 0 := by
  have hp : ∀ a c, makeDict2 (job_names.drop 1) machines pt a c = 0 :=
    fun a c => makeDict2_zero hpt a c
  have hs : ∀ a b c, makeDict3 job_names job_names machines st a b c = 0 :=
    fun a b c => makeDict3_zero hst a b c
  cases b with
  | false =>
    rw [calcMakespan_ordered_eq]
    refine pyMaxQ_const_zero (by simpa using machineKeys_ne_nil hne) ?_
    intro x hx
    obtain ⟨m, hm, e⟩ := List.mem_map.mp hx
    rw [← e]
    unfold ordMachineMakespan
    have hgz : ∀ j ∈ jobsOn jobs m, j.completion_time = 0 := fun j hj =>
      hjz j (jobsOn_machine hj).2
    have hne2 : (jobsOn jobs m).map (fun j =>
        ordCompletion (jobsOn jobs m) m (makeDict2 (job_names.drop 1) machines pt)
          (makeDict3 job_names job_names machines st) j) ≠ [] := by
      simpa using jobsOn_ne_nil hm
    rw [pyMaxQ_const_zero hne2 ?_]
    · rfl
    · intro y hy
      obtain ⟨j, hj, ej⟩ := List.mem_map.mp hy
      rw [← ej]
      exact ordCompletion_zero hp hs hgz j
  | true =>
    obtain ⟨gs, hgs, _⟩ := runMachines_bin_zero jobs hp hs hjz (machineKeys jobs)
      (fun m hm => jobsOn_ne_nil hm)
    simp only [calcMakespan, hgs]
    refine pyMaxQ_const_zero ?_ ?_
    · simpa using machineKeys_ne_nil hne
    · intro x hx
      obtain ⟨_, _, e⟩ := List.mem_map.mp hx
      exact e.symm

lemma finalLedger_zero_tables {jobs : List JobResultInfo} {pt : List (List ℤ)}
    {st : List (List (List ℤ))} {job_names machines : List String}
    (hpt : ∀ row ∈ pt, ∀ x ∈ row, x = 0)
    (hst : ∀ t2 ∈ st, ∀ row ∈ t2, ∀ x ∈ row, x = 0)
    (hjz : ∀ j ∈ jobs, j.completion_time = 0) (b : Bool)
    (final : List JobResultInfo)
    (hfin : finalLedger jobs pt st job_names machines b = some final) :
    ∀ j ∈ final, j.completion_time = 0 := by
  have hp : ∀ a c, makeDict2 (job_names.drop 1) machines pt a c = 0 :=
    fun a c => makeDict2_zero hpt a c
  have hs : ∀ a b c, makeDict3 job_names job_names machines st a b c = 0 :=
    fun a b c => makeDict3_zero hst a b c
  cases b with
  | false =>
    obtain ⟨gs, hgs, hgz⟩ := runMachines_ordered (makeDict2 (job_names.drop 1) machines pt)
      (makeDict3 job_names job_names machines st) jobs (machineKeys jobs)
      (fun m hm => jobsOn_ne_nil hm)
    simp only [finalLedger, hgs] at hfin
    intro j hj
    rw [← Option.some_inj.mp hfin] at hj
    obtain ⟨g, hgmem, hjg⟩ := List.mem_flatten.mp hj
    obtain ⟨m, hm, he⟩ := hgz g hgmem
    have hmem : j.completion_time ∈ g.map (fun j => j.completion_time) :=
      List.mem_map_of_mem _ hjg
    rw [he] at hmem
    obtain ⟨j', hj', ej⟩ := List.mem_map.mp hmem
    have hgz2 : ∀ x ∈ jobsOn jobs m, x.completion_time = 0 := fun x hx =>
      hjz x (jobsOn_machine hx).2
    rw [← ej]
    exact ordCompletion_zero hp hs hgz2 j'
  | true =>
    obtain ⟨gs, hgs, hgz⟩ := runMachines_bin_zero jobs hp hs hjz (machineKeys jobs)
      (fun m hm => jobsOn_ne_nil hm)
    simp only [finalLedger, hgs] at hfin
    intro j hj
    rw [← Option.some_inj.mp hfin] at hj
    obtain ⟨g, hgmem, hjg⟩ := List.mem_flatten.mp hj
    exact hgz g hgmem j hjg

/-! ## One job per machine: the two policies coincide when the job's input
completion time does not exceed its start time (or its start time is 0) -/

lemma findLastCompleted_singleton (j : JobResultInfo) (m : String) :
    findLastCompleted j.name [j] m =
      if j.completion_time ≤ j.start_time then some j else some (dummyJob m) := by
  unfold findLastCompleted
  rw [show ([j].find? (fun x => x.name == j.name)) = some j by simp [List.find?]]
  dsimp only
  by_cases hc : j.completion_time ≤ j.start_time
  · rw [if_pos hc]
    rw [show [j].filter (fun x => x.completion_time ≤ j.start_time) = [j] by simp [hc]]
    simp [maxByCompletion]
  · rw [if_neg hc]
    rw [show [j].filter (fun x => x.completion_time ≤ j.start_time) = [] by simp [hc]]
    simp

lemma ordCompletion_singleton (p : String → String → ℤ) (s : String → String → String → ℤ)
    (m : String) (j : JobResultInfo)
    (hj : j.start_time = 0 ∨ j.completion_time ≤ j.start_time) :
    ordCompletion [j] m p s j =
      (if j.start_time = 0 then dummyJob m else j).completion_time + p j.name m
        + s (if j.start_time = 0 then dummyJob m else j).name j.name m := by
  unfold ordCompletion
  rw [findLastCompleted_singleton]
  by_cases hc : j.completion_time ≤ j.start_time
  · rw [if_pos hc]
  · rw [if_neg hc]
    have h0 : j.start_time = 0 := hj.resolve_right hc
    dsimp only
    rw [if_pos h0, if_pos h0]

lemma singleton_same_completion (p : String → String → ℤ)
    (s : String → String → String → ℤ) (m : String) (j : JobResultInfo)
    (hj : j.start_time = 0 ∨ j.completion_time ≤ j.start_time) :
    ∃ g₁ g₂ c, runMachine p s false m [j] = some g₁ ∧
      runMachine p s true m [j] = some g₂ ∧
      g₁.map (fun x => x.completion_time) = [c] ∧
      g₂.map (fun x => x.completion_time) = [c] := by
  obtain ⟨g₁, hrun₁, hlen₁, _, _, hcomp₁⟩ := runMachine_ordered p s m [j]
  have hmx : maxByCompletion [j] = some j := rfl
  have hs0 : ([j] : List JobResultInfo)[0]? = some j := rfl
  have hrun₂ : runMachine p s true m [j] = some [{ j with
      start_time := (if j.start_time = 0 then dummyJob m else j).completion_time,
      completion_time := (if j.start_time = 0 then dummyJob m else j).completion_time
        + p j.name m
        + s (if j.start_time = 0 then dummyJob m else j).name j.name m }] := by
    show runSteps (binStep m p s) (sortedPositions [j]) [j] = _
    rw [show sortedPositions [j] = [0] from rfl]
    unfold runSteps
    rw [binStep_some hs0 hmx]
    rfl
  refine ⟨g₁, _,
    (if j.start_time = 0 then dummyJob m else j).completion_time + p j.name m
      + s (if j.start_time = 0 then dummyJob m else j).name j.name m,
    hrun₁, hrun₂, ?_, ?_⟩
  · rw [hcomp₁]
    simp [ordCompletion_singleton p s m j hj]
  · simp

lemma filter_machine_singleton :
    ∀ (jobs : List JobResultInfo),
      jobs.Pairwise (fun a b => a.machine ≠ b.machine) →
      ∀ j ∈ jobs, jobsOn jobs j.machine = [j] := by
  intro jobs
  induction jobs with
  | nil => intro _ j hj; exact absurd hj (List.not_mem_nil j)
  | cons a l ih =>
    intro hp j hj
    have ha : ∀ b ∈ l, a.machine ≠ b.machine := (List.pairwise_cons.mp hp).1
    have hl : l.Pairwise (fun a b => a.machine ≠ b.machine) := (List.pairwise_cons.mp hp).2
    rcases List.mem_cons.mp hj with rfl | hj2
    · unfold jobsOn
      rw [List.filter_cons]
      simp only [beq_self_eq_true, if_pos]
      rw [List.filter_eq_nil_iff.mpr ?_]
      intro b hb
      simp [(ha b hb).symm]
    · unfold jobsOn
      rw [List.filter_cons]
      have hne : ¬(a.machine == j.machine) := by
        simp [ha j hj2]
      rw [if_neg (by simpa using hne)]
      exact ih hl j hj2

lemma runMachines_singletons (p : String → String → ℤ)
    (s : String → String → String → ℤ) (jobs : List JobResultInfo) :
    ∀ ks : List String,
      (∀ m ∈ ks, ∃ j, jobsOn jobs m = [j] ∧
        (j.start_time = 0 ∨ j.completion_time ≤ j.start_time)) →
      ∃ vs gs₁ gs₂, runMachines p s false jobs ks = some (vs, gs₁) ∧
        runMachines p s true jobs ks = some (vs, gs₂) := by
  intro ks
  induction ks with
  | nil => intro _; exact ⟨[], [], [], rfl, rfl⟩
  | cons m ks ih =>
    intro hsing
    obtain ⟨j, hgm, hok⟩ := hsing m (List.mem_cons_self m ks)
    obtain ⟨g₁, g₂, c, hrun₁, hrun₂, hc₁, hc₂⟩ := singleton_same_completion p s m j hok
    obtain ⟨vs, gs₁, gs₂, hgs₁, hgs₂⟩ := ih fun m' hm' =>
      hsing m' (List.mem_cons_of_mem _ hm')
    refine ⟨c :: vs, g₁ :: gs₁, g₂ :: gs₂, ?_, ?_⟩
    · have h1 : runMachine p s false m (jobsOn jobs m) = some g₁ := by rw [hgm]; exact hrun₁
      simp only [runMachines, h1, hc₁, hgs₁]
      rfl
    · have h2 : runMachine p s true m (jobsOn jobs m) = some g₂ := by rw [hgm]; exact hrun₂
      simp only [runMachines, h2, hc₂, hgs₂]
      rfl

/-! ## Ordered-list runs on an all-zero-start ledger with no job named "0" -/

lemma ordCompletion_zstart {js : List JobResultInfo} {m : String}
    {p : String → String → ℤ} {s : String → String → String → ℤ}
    {j : JobResultInfo} (hj : j ∈ js) (h0 : j.start_time = 0) :
    ordCompletion js m p s j = 0 + p j.name m + s "0" j.name m := by
  obtain ⟨r, hr⟩ := findLastCompleted_isSome_of_mem hj m
  unfold ordCompletion
  rw [hr]
  dsimp only
  rw [if_pos h0]
  rfl

lemma runSteps_ordered_zstart (js : List JobResultInfo) (m : String)
    (p : String → String → ℤ) (s : String → String → String → ℤ) :
    ∀ (ps : List ℕ) (state final : List JobResultInfo),
      (∀ j ∈ state, j.start_time = 0 ∧ j.name ≠ "0") →
      runSteps (orderedStep js m p s) ps state = some final →
      ∀ j ∈ final, j.start_time = 0 ∧ j.name ≠ "0" := by
  intro ps
  induction ps with
  | nil =>
    intro state final hinv hrun
    cases hrun
    exact hinv
  | cons i₀ rest ih =>
    intro state final hinv hrun
    unfold runSteps at hrun
    cases hstep : orderedStep js m p s state i₀ with
    | none => rw [hstep] at hrun; cases hrun
    | some st' =>
      rw [hstep] at hrun
      refine ih st' final ?_ hrun
      cases hs0 : state[i₀]? with
      | none =>
        rw [orderedStep_skip hs0] at hstep
        injection hstep with he
        rw [← he]
        exact hinv
      | some job =>
        cases hf : findLastCompleted job.name js m with
        | none => simp [orderedStep, hs0, hf] at hstep
        | some found =>
          obtain ⟨job', hsome, hname', _, _, _, hstart'⟩ := orderedStep_some hs0 hf
          rw [hsome] at hstep
          injection hstep with he
          intro x hx
          rw [← he] at hx
          rcases List.mem_or_eq_of_mem_set hx with hx1 | rfl
          · exact hinv x hx1
          · have hjmem : job ∈ state := List.getElem?_mem hs0
            have hj0 : job.start_time = 0 := (hinv job hjmem).1
            refine ⟨?_, ?_⟩
            · rw [hstart']
              rw [if_pos hj0]
              have hfz : state.find? (fun j => (dummyJob m).name == j.name) = none := by
                refine List.find?_eq_none.mpr ?_
                intro x hxs
                have := (hinv x hxs).2
                simp [dummyJob]
                exact fun e => this e.symm
              rw [hfz]
              rfl
            · rw [hname']
              exact (hinv job hjmem).2

lemma map_eq_of_pointwise {α β : Type} (f : α → β) {l₁ l₂ : List α}
    (h : ∀ i : ℕ, (l₁[i]?).map f = (l₂[i]?).map f) : l₁.map f = l₂.map f := by
  apply List.ext_getElem?
  intro i
  rw [List.getElem?_map, List.getElem?_map]
  exact h i

lemma runMachines_ordered_blocks (p : String → String → ℤ)
    (s : String → String → String → ℤ) (jobs : List JobResultInfo) :
    ∀ ks : List String, (∀ m ∈ ks, jobsOn jobs m ≠ []) →
      ∃ gs, runMachines p s false jobs ks =
          some (ks.map (fun m => ordMachineMakespan p s jobs m), gs) ∧
        gs.length = ks.length ∧
        ∀ k : ℕ, ∀ m g, ks[k]? = some m → gs[k]? = some g →
          runMachine p s false m (jobsOn jobs m) = some g := by
  intro ks
  induction ks with
  | nil =>
    intro _
    refine ⟨[], rfl, rfl, ?_⟩
    intro k m g hk _
    rw [List.getElem?_nil] at hk
    cases hk
  | cons m ks ih =>
    intro hne
    obtain ⟨final, hrun, hlen, hn, hm, hcomp⟩ := runMachine_ordered p s m (jobsOn jobs m)
    have hne0 : jobsOn jobs m ≠ [] := hne m (List.mem_cons_self m ks)
    have hmapne : (jobsOn jobs m).map (fun j => ordCompletion (jobsOn jobs m) m p s j) ≠ [] := by
      simpa using hne0
    obtain ⟨v, hv, _, _⟩ := pyMaxQ_spec hmapne
    obtain ⟨gs, hgs, hglen, hgidx⟩ := ih fun m' hm' => hne m' (List.mem_cons_of_mem _ hm')
    refine ⟨final :: gs, ?_, by simpa using hglen, ?_⟩
    · have hval : ordMachineMakespan p s jobs m = v := by
        unfold ordMachineMakespan
        rw [hv]
        rfl
      simp only [runMachines, hrun, hcomp, hv, hgs, List.map_cons, hval]
    · intro k m' g hk hg
      cases k with
      | zero =>
        rw [List.getElem?_cons_zero] at hk hg
        injection hk with hk1
        injection hg with hg1
        rw [← hk1, ← hg1]
        exact hrun
      | succ k =>
        rw [List.getElem?_cons_succ] at hk hg
        exact hgidx k m' g hk hg

/-! ## Regrouping the concatenated final ledger by machine -/

lemma foldlKeys_const (m : String) :
    ∀ (g : List JobResultInfo), (∀ j ∈ g, j.machine = m) →
      ∀ acc : List String, m ∈ acc →
        g.foldl (fun acc j => if j.machine ∈ acc then acc else acc ++ [j.machine]) acc
          = acc := by
  intro g
  induction g with
  | nil => intro _ acc _; rfl
  | cons j g ihg =>
    intro hg acc hm
    simp only [List.foldl_cons]
    rw [if_pos (by rw [hg j (List.mem_cons_self j g)]; exact hm)]
    exact ihg (fun x hx => hg x (List.mem_cons_of_mem _ hx)) acc hm

lemma foldlKeys_block (m : String) (g : List JobResultInfo)
    (hg : ∀ j ∈ g, j.machine = m) (hne : g ≠ []) :
    ∀ acc : List String, m ∉ acc →
      g.foldl (fun acc j => if j.machine ∈ acc then acc else acc ++ [j.machine]) acc
        = acc ++ [m] := by
  match g, hne with
  | j :: g', _ =>
    intro acc hm
    simp only [List.foldl_cons]
    rw [hg j (List.mem_cons_self j g')]
    rw [if_neg hm]
    exact foldlKeys_const m g' (fun x hx => hg x (List.mem_cons_of_mem _ hx)) (acc ++ [m])
      (List.mem_append.mpr (Or.inr (List.mem_singleton.mpr rfl)))

lemma foldlKeys_flatten :
    ∀ (bs : List (String × List JobResultInfo)),
      (∀ b ∈ bs, b.2 ≠ [] ∧ ∀ j ∈ b.2, j.machine = b.1) →
      (bs.map Prod.fst).Nodup →
      ∀ acc : List String, (∀ x ∈ bs.map Prod.fst, x ∉ acc) →
        ((bs.map Prod.snd).flatten).foldl
          (fun acc j => if j.machine ∈ acc then acc else acc ++ [j.machine]) acc
          = acc ++ bs.map Prod.fst := by
  intro bs
  induction bs with
  | nil => intro _ _ acc _; simp
  | cons b₀ bs ihb =>
    intro hb hnd acc hdisj
    simp only [List.map_cons, List.flatten_cons, List.foldl_append]
    rw [foldlKeys_block b₀.1 b₀.2 (hb b₀ (List.mem_cons_self b₀ bs)).2
      (hb b₀ (List.mem_cons_self b₀ bs)).1 acc
      (hdisj b₀.1 (by simp))]
    rw [ihb (fun b hbm => hb b (List.mem_cons_of_mem _ hbm))
      (List.nodup_cons.mp (by simpa using hnd)).2 (acc ++ [b₀.1]) ?_]
    · rw [List.append_assoc]
      rfl
    · intro x hx
      rw [List.mem_append, List.mem_singleton]
      rintro (h1 | rfl)
      · exact hdisj x (List.mem_cons_of_mem _ hx) h1
      · exact (List.nodup_cons.mp (by simpa using hnd)).1 hx

lemma machineKeys_flatten (bs : List (String × List JobResultInfo))
    (hb : ∀ b ∈ bs, b.2 ≠ [] ∧ ∀ j ∈ b.2, j.machine = b.1)
    (hnd : (bs.map Prod.fst).Nodup) :
    machineKeys ((bs.map Prod.snd).flatten) = bs.map Prod.fst := by
  unfold machineKeys
  rw [foldlKeys_flatten bs hb hnd [] (fun x _ => List.not_mem_nil x)]
  rfl

lemma jobsOn_flatten :
    ∀ (bs : List (String × List JobResultInfo)),
      (∀ b ∈ bs, ∀ j ∈ b.2, j.machine = b.1) →
      (bs.map Prod.fst).Nodup →
      ∀ b ∈ bs, jobsOn ((bs.map Prod.snd).flatten) b.1 = b.2 := by
  intro bs
  induction bs with
  | nil => intro _ _ b hb; exact absurd hb (List.not_mem_nil b)
  | cons b₀ bs ihb =>
    intro hmach hnd b hb
    have hnd1 : b₀.1 ∉ bs.map Prod.fst := (List.nodup_cons.mp (by simpa using hnd)).1
    have hnd2 : (bs.map Prod.fst).Nodup := (List.nodup_cons.mp (by simpa using hnd)).2
    simp only [List.map_cons, List.flatten_cons]
    show List.filter _ (b₀.2 ++ (bs.map Prod.snd).flatten) = b.2
    rw [List.filter_append]
    rcases List.mem_cons.mp hb with rfl | hb2
    · rw [List.filter_eq_self.mpr ?_, List.filter_eq_nil_iff.mpr ?_, List.append_nil]
      · intro j hj
        obtain ⟨g, hg, hjg⟩ := List.mem_flatten.mp hj
        obtain ⟨b', hb', he⟩ := List.mem_map.mp hg
        have h1 : j.machine = b'.1 := hmach b' (List.mem_cons_of_mem _ hb') j (he ▸ hjg)
        have h2 : b'.1 ≠ b.1 := by
          intro e
          exact hnd1 (e ▸ List.mem_map_of_mem Prod.fst hb')
        simp [h1, h2]
      · intro j hj
        simp [hmach b (List.mem_cons_self b bs) j hj]
    · rw [List.filter_eq_nil_iff.mpr ?_, List.nil_append]
      · exact ihb (fun b' hb' => hmach b' (List.mem_cons_of_mem _ hb')) hnd2 b hb2
      · intro j hj
        have h1 : j.machine = b₀.1 := hmach b₀ (List.mem_cons_self b₀ bs) j hj
        have h2 : b₀.1 ≠ b.1 := by
          intro e
          exact hnd1 (e ▸ List.mem_map_of_mem Prod.fst hb2)
        simp [h1, h2]

lemma block_props {P : String → String → ℤ} {S : String → String → String → ℤ}
    {jobs : List JobResultInfo}
    (h0 : ∀ j ∈ jobs, j.start_time = 0) (hn : ∀ j ∈ jobs, j.name ≠ "0")
    {m : String} {g : List JobResultInfo} (hm : m ∈ machineKeys jobs)
    (hrun : runMachine P S false m (jobsOn jobs m) = some g) :
    g ≠ [] ∧ (∀ j ∈ g, j.machine = m) ∧ (∀ j ∈ g, j.start_time = 0 ∧ j.name ≠ "0") ∧
      g.map (fun j => j.name) = (jobsOn jobs m).map (fun j => j.name) := by
  obtain ⟨final', hrun', hlen', hname', hmach', hcomp'⟩ := runMachine_ordered P S m (jobsOn jobs m)
  rw [hrun'] at hrun
  injection hrun with he
  subst he
  refine ⟨?_, ?_, ?_, map_eq_of_pointwise _ hname'⟩
  · intro e
    rw [e] at hlen'
    exact jobsOn_ne_nil hm (List.eq_nil_of_length_eq_zero hlen'.symm)
  · intro j hj
    have h1 : j.machine ∈ final'.map (fun j => j.machine) := List.mem_map_of_mem _ hj
    rw [map_eq_of_pointwise _ hmach'] at h1
    obtain ⟨j', hj', e⟩ := List.mem_map.mp h1
    rw [← e]
    exact (jobsOn_machine hj').1
  · refine runSteps_ordered_zstart (jobsOn jobs m) m P S (sortedPositions (jobsOn jobs m))
      (jobsOn jobs m) final' ?_ hrun'
    intro j hj
    exact ⟨h0 j (jobsOn_machine hj).2, hn j (jobsOn_machine hj).2⟩

lemma rerun_ordered_zstart (jobs : List JobResultInfo) (pt : List (List ℤ))
    (st : List (List (List ℤ))) (job_names machines : List String)
    (h0 : ∀ j ∈ jobs, j.start_time = 0) (hn : ∀ j ∈ jobs, j.name ≠ "0")
    (final : List JobResultInfo)
    (hfin : finalLedger jobs pt st job_names machines false = some final) :
    calcMakespan final pt st job_names machines false =
      calcMakespan jobs pt st job_names machines false := by
  obtain ⟨gs, hgs, hglen, hgidx⟩ := runMachines_ordered_blocks
    (makeDict2 (job_names.drop 1) machines pt) (makeDict3 job_names job_names machines st)
    jobs (machineKeys jobs) (fun m hm => jobsOn_ne_nil hm)
  simp only [finalLedger, hgs] at hfin
  have hfe : final = gs.flatten := (Option.some_inj.mp hfin).symm
  have hfst : ((machineKeys jobs).zip gs).map Prod.fst = machineKeys jobs :=
    List.map_fst_zip _ _ (le_of_eq hglen.symm)
  have hsnd : ((machineKeys jobs).zip gs).map Prod.snd = gs :=
    List.map_snd_zip _ _ (le_of_eq hglen)
  have hbrun : ∀ b ∈ (machineKeys jobs).zip gs,
      b.1 ∈ machineKeys jobs ∧
      runMachine (makeDict2 (job_names.drop 1) machines pt)
        (makeDict3 job_names job_names machines st) false b.1 (jobsOn jobs b.1) = some b.2 := by
    intro b hbm
    obtain ⟨k, hk⟩ := List.mem_iff_getElem?.mp hbm
    obtain ⟨hk1, hk2⟩ := List.getElem?_zip_eq_some.mp hk
    exact ⟨List.getElem?_mem hk1, hgidx k b.1 b.2 hk1 hk2⟩
  have hbp : ∀ b ∈ (machineKeys jobs).zip gs,
      b.2 ≠ [] ∧ (∀ j ∈ b.2, j.machine = b.1) ∧
      (∀ j ∈ b.2, j.start_time = 0 ∧ j.name ≠ "0") ∧
      b.2.map (fun j => j.name) = (jobsOn jobs b.1).map (fun j => j.name) := by
    intro b hbm
    exact block_props h0 hn (hbrun b hbm).1 (hbrun b hbm).2
  have hndf : (((machineKeys jobs).zip gs).map Prod.fst).Nodup := by
    rw [hfst]
    exact machineKeys_nodup jobs
  have hkeysf : machineKeys final = machineKeys jobs := by
    rw [hfe, ← hsnd, machineKeys_flatten _ (fun b hb => ⟨(hbp b hb).1, (hbp b hb).2.1⟩) hndf,
      hfst]
  have hjobsf : ∀ b ∈ (machineKeys jobs).zip gs, jobsOn final b.1 = b.2 := by
    intro b hb
    rw [hfe, ← hsnd]
    exact jobsOn_flatten _ (fun b' hb' => (hbp b' hb').2.1) hndf b hb
  rw [calcMakespan_ordered_eq, calcMakespan_ordered_eq, hkeysf]
  congr 1
  apply List.map_congr_left
  intro m hm
  have hmf : m ∈ ((machineKeys jobs).zip gs).map Prod.fst := by
    rw [hfst]
    exact hm
  obtain ⟨b, hbm, he⟩ := List.mem_map.mp hmf
  rw [← he]
  unfold ordMachineMakespan
  rw [hjobsf b hbm]
  have hz2 : ∀ j ∈ b.2, j.start_time = 0 := fun j hj => ((hbp b hbm).2.2.1 j hj).1
  have hz1 : ∀ j ∈ jobsOn jobs b.1, j.start_time = 0 := fun j hj =>
    h0 j (jobsOn_machine hj).2
  have hmapeq : b.2.map (fun j => ordCompletion b.2 b.1
        (makeDict2 (job_names.drop 1) machines pt)
        (makeDict3 job_names job_names machines st) j) =
      (jobsOn jobs b.1).map (fun j => ordCompletion (jobsOn jobs b.1) b.1
        (makeDict2 (job_names.drop 1) machines pt)
        (makeDict3 job_names job_names machines st) j) := by
    rw [List.map_congr_left (fun j hj => ordCompletion_zstart hj (hz2 j hj))]
    rw [List.map_congr_left (fun j hj => ordCompletion_zstart hj (hz1 j hj))]
    have e1 : b.2.map (fun j => (0 : ℤ) + makeDict2 (job_names.drop 1) machines pt j.name b.1
        + makeDict3 job_names job_names machines st "0" j.name b.1) =
        (b.2.map (fun j => j.name)).map (fun n => (0 : ℤ)
          + makeDict2 (job_names.drop 1) machines pt n b.1
          + makeDict3 job_names job_names machines st "0" n b.1) := by
      rw [List.map_map]
      rfl
    have e2 : (jobsOn jobs b.1).map (fun j => (0 : ℤ)
        + makeDict2 (job_names.drop 1) machines pt j.name b.1
        + makeDict3 job_names job_names machines st "0" j.name b.1) =
        ((jobsOn jobs b.1).map (fun j => j.name)).map (fun n => (0 : ℤ)
          + makeDict2 (job_names.drop 1) machines pt n b.1
          + makeDict3 job_names job_names machines st "0" n b.1) := by
      rw [List.map_map]
      rfl
    rw [e1, e2, (hbp b hbm).2.2.2]
  rw [hmapeq]

/-! ## Failure behaviour of the ordered-list resolver -/

lemma findLastCompleted_eq_none_iff {n : String} {js : List JobResultInfo} {m : String} :
    findLastCompleted n js m = none ↔ n ∉ js.map (fun j => j.name) := by
  unfold findLastCompleted
  cases hf : js.find? (fun j => j.name == n) with
  | none =>
    constructor
    · intro _ hmem
      obtain ⟨j, hj, e⟩ := List.mem_map.mp hmem
      exact List.find?_eq_none.mp hf j hj (by simp [e])
    · intro _
      rfl
  | some job =>
    dsimp only
    constructor
    · intro h
      exfalso
      by_cases hc : (js.filter (fun j => j.completion_time ≤ job.start_time)).length = 0
      · rw [if_pos hc] at h
        cases h
      · rw [if_neg hc] at h
        have hne : js.filter (fun j => j.completion_time ≤ job.start_time) ≠ [] := by
          intro e
          exact hc (by rw [e]; rfl)
        obtain ⟨r, hr, _, _⟩ := maxByCompletion_spec hne
        rw [hr] at h
        cases h
    · intro h
      exfalso
      apply h
      have h1 : job ∈ js := List.mem_of_find?_eq_some hf
      have h2 : job.name = n := by simpa using List.find?_some hf
      exact List.mem_map.mpr ⟨job, h1, h2⟩

lemma runSteps_ordered_propagates (copy : List JobResultInfo) (m : String)
    (p : String → String → ℤ) (s : String → String → String → ℤ) :
    ∀ (ps : List ℕ) (state : List JobResultInfo),
      (∃ i ∈ ps, ∃ job, state[i]? = some job ∧
        job.name ∉ copy.map (fun j => j.name)) →
      runSteps (orderedStep copy m p s) ps state = none := by
  intro ps
  induction ps with
  | nil =>
    rintro state ⟨i, hi, _⟩
    exact absurd hi (List.not_mem_nil i)
  | cons i₀ rest ih =>
    rintro state ⟨i, hi, job, hji, hname⟩
    unfold runSteps
    rcases List.mem_cons.mp hi with rfl | hi2
    · have hflc : findLastCompleted job.name copy m = none :=
        findLastCompleted_eq_none_iff.mpr hname
      rw [show orderedStep copy m p s state i = none by simp [orderedStep, hji, hflc]]
    · cases hstep : orderedStep copy m p s state i₀ with
      | none => rfl
      | some st' =>
        apply ih st'
        cases hs0 : state[i₀]? with
        | none =>
          rw [orderedStep_skip hs0] at hstep
          injection hstep with he
          exact ⟨i, hi2, job, he ▸ hji, hname⟩
        | some job₀ =>
          cases hf : findLastCompleted job₀.name copy m with
          | none => simp [orderedStep, hs0, hf] at hstep
          | some found =>
            obtain ⟨job', hsome, _, _, _, _, _⟩ := orderedStep_some hs0 hf
            rw [hsome] at hstep
            injection hstep with he
            by_cases hii : i₀ = i
            · exfalso
              subst hii
              rw [hs0] at hji
              injection hji with e
              subst e
              exact absurd (findLastCompleted_eq_none_iff.mpr hname) (by rw [hf]; simp)
            · refine ⟨i, hi2, job, ?_, hname⟩
              rw [← he, List.getElem?_set_ne hii]
              exact hji

/-! ## The per-machine pass reads the Time Tables only at its own machine -/

lemma runSteps_congr {step₁ step₂ : List JobResultInfo → ℕ → Option (List JobResultInfo)}
    (h : ∀ st i, step₁ st i = step₂ st i) :
    ∀ (ps : List ℕ) (st : List JobResultInfo), runSteps step₁ ps st = runSteps step₂ ps st := by
  intro ps
  induction ps with
  | nil => intro st; rfl
  | cons i rest ih =>
    intro st
    unfold runSteps
    rw [h st i]
    cases step₂ st i with
    | none => rfl
    | some st' => exact ih st'

lemma binStep_congr {p₁ p₂ : String → String → ℤ} {s₁ s₂ : String → String → String → ℤ}
    {m : String} (hp : ∀ a, p₁ a m = p₂ a m) (hs : ∀ a b, s₁ a b m = s₂ a b m)
    (state : List JobResultInfo) (i : ℕ) :
    binStep m p₁ s₁ state i = binStep m p₂ s₂ state i := by
  unfold binStep
  cases state[i]? with
  | none => rfl
  | some job =>
    dsimp only
    cases binPredecessor m state job with
    | none => rfl
    | some lc =>
      dsimp only
      rw [hp, hs]

lemma orderedStep_congr {p₁ p₂ : String → String → ℤ} {s₁ s₂ : String → String → String → ℤ}
    {copy : List JobResultInfo} {m : String}
    (hp : ∀ a, p₁ a m = p₂ a m) (hs : ∀ a b, s₁ a b m = s₂ a b m)
    (state : List JobResultInfo) (i : ℕ) :
    orderedStep copy m p₁ s₁ state i = orderedStep copy m p₂ s₂ state i := by
  unfold orderedStep
  cases state[i]? with
  | none => rfl
  | some job =>
    dsimp only
    cases findLastCompleted job.name copy m with
    | none => rfl
    | some found =>
      dsimp only
      rw [hp, hs]

lemma runMachine_congr {p₁ p₂ : String → String → ℤ} {s₁ s₂ : String → String → String → ℤ}
    (m : String) (hp : ∀ a, p₁ a m = p₂ a m) (hs : ∀ a b, s₁ a b m = s₂ a b m)
    (for_bin : Bool) (js : List JobResultInfo) :
    runMachine p₁ s₁ for_bin m js = runMachine p₂ s₂ for_bin m js := by
  cases for_bin with
  | false =>
    show runSteps (orderedStep js m p₁ s₁) (sortedPositions js) js = _
    exact runSteps_congr (fun st i => orderedStep_congr hp hs st i) _ _
  | true =>
    show runSteps (binStep m p₁ s₁) (sortedPositions js) js = _
    exact runSteps_congr (fun st i => binStep_congr hp hs st i) _ _

/-! ## Claim theorems -/

/-- C1, counterexample: in the ordered-list scenario of the claim (A: start 0,
processing 5; B: start 5, processing 3; setup A→B = 2, all other entries 0),
choosing input completion-time fields A = 0 and B = 10 makes the evaluator
return makespan 5, not 10, because the loop adds the snapshot predecessor's
input completion time (0), not its recomputed one (5).  So the claim is false
for some values of the input completion-time fields. -/
theorem c1_counterexample :
    calculate_makespan ⟨["0", "A", "B"], ["M"]⟩
        [⟨"A", "M", 0, 0, 0⟩, ⟨"B", "M", 5, 10, 0⟩] [[5], [3]]
        [[[0], [0], [0]], [[0], [0], [2]], [[0], [0], [0]]] = some 5 ∧
      calculate_makespan ⟨["0", "A", "B"], ["M"]⟩
        [⟨"A", "M", 0, 0, 0⟩, ⟨"B", "M", 5, 10, 0⟩] [[5], [3]]
        [[[0], [0], [0]], [[0], [0], [2]], [[0], [0], [0]]] ≠ some 10 := by
  decide

/-- C1 (amended): in the two-job scenario (A: start 0, processing 5; B:
start 5, processing 3; setup A→B = 2, every other table entry 0), with the
input completion-time fields set to the schedule-consistent values A = 5 and
B = 10 (rather than for every value of those fields),
`evaluate_ordered_schedule` sets A's completion time to 5, resolves B's
predecessor to A, sets B's completion time to 5 + 3 + 2 = 10, and returns
makespan 10. -/
theorem c1_amended :
    calculate_makespan ⟨["0", "A", "B"], ["M"]⟩
        [⟨"A", "M", 0, 5, 0⟩, ⟨"B", "M", 5, 10, 0⟩] [[5], [3]]
        [[[0], [0], [0]], [[0], [0], [2]], [[0], [0], [0]]] = some 10 ∧
      finalLedger [⟨"A", "M", 0, 5, 0⟩, ⟨"B", "M", 5, 10, 0⟩] [[5], [3]]
        [[[0], [0], [0]], [[0], [0], [2]], [[0], [0], [0]]]
        ["0", "A", "B"] ["M"] false =
        some [⟨"A", "M", 0, 5, 0⟩, ⟨"B", "M", 5, 10, 0⟩] ∧
      (findLastCompleted "B" [⟨"A", "M", 0, 5, 0⟩, ⟨"B", "M", 5, 10, 0⟩] "M").map
        (fun j => j.name) = some "A" := by
  decide

/-- C2, counterexample: with every processing and setup entry in the Time
Tables equal to 0 but a job whose input completion-time field is 3 (start
time 5), both evaluators return makespan 3, not 0: the zero-table makespan
is 0 only when the input completion-time fields are 0. -/
theorem c2_counterexample :
    calcMakespan [⟨"A", "M", 5, 3, 0⟩] [[0]] [[[0], [0]], [[0], [0]]]
        ["0", "A"] ["M"] false = some 3 ∧
      calcMakespan [⟨"A", "M", 5, 3, 0⟩] [[0]] [[[0], [0]], [[0], [0]]]
        ["0", "A"] ["M"] true = some 3 ∧
      (some (3 : ℤ)) ≠ some 0 := by
  decide

/-- C2 (amended): for every assignment in which every processing and setup
entry of the Time Tables is 0, every job's input completion-time field is 0,
and the job list is nonempty, both evaluators return makespan 0 and every
job's final completion time is 0 — hence equals its resolved predecessor's
(zero) completion time.  (On the empty job list the evaluators raise; with
nonzero input completion-time fields the makespan can be nonzero.) -/
theorem c2_amended (jobs : List JobResultInfo) (pt : List (List ℤ))
    (st : List (List (List ℤ))) (job_names machines : List String)
    (hpt : ∀ row ∈ pt, ∀ x ∈ row, x = 0)
    (hst : ∀ t2 ∈ st, ∀ row ∈ t2, ∀ x ∈ row, x = 0)
    (hjz : ∀ j ∈ jobs, j.completion_time = 0)
    (hne : jobs ≠ []) (b : Bool) :
    calcMakespan jobs pt st job_names machines b = some 0 ∧
      ∀ final, finalLedger jobs pt st job_names machines b = some final →
        ∀ j ∈ final, j.completion_time = 0 :=
  ⟨calcMakespan_zero_tables hpt hst hjz hne b,
   fun final hfin => finalLedger_zero_tables hpt hst hjz b final hfin⟩

/-- C2, witness: the amended claim applied to a concrete one-job assignment
with all-zero tables. -/
theorem c2_witness :
    calcMakespan [⟨"A", "M", 5, 0, 0⟩] [[0]] [[[0], [0]], [[0], [0]]]
      ["0", "A"] ["M"] false = some 0 :=
  (c2_amended [⟨"A", "M", 5, 0, 0⟩] [[0]] [[[0], [0]], [[0], [0]]] ["0", "A"] ["M"]
    (by decide) (by decide) (by decide) (by decide) false).1

/-- C3: in dynamic-bin mode the resolved predecessor of a job on a nonempty
live machine list is a job of that live list carrying its maximum completion
time, except that a job whose start time is exactly 0 gets the dummy job
(name "0", completion time 0) as predecessor, overriding any computed
maximum. -/
theorem c3_bin_predecessor (machine : String) (state : List JobResultInfo)
    (job : JobResultInfo) (hne : state ≠ []) :
    (job.start_time = 0 → binPredecessor machine state job = some (dummyJob machine)) ∧
    (job.start_time ≠ 0 → ∃ pred, binPredecessor machine state job = some pred ∧
      pred ∈ state ∧ ∀ x ∈ state, x.completion_time ≤ pred.completion_time) ∧
    (dummyJob machine).name = "0" ∧ (dummyJob machine).completion_time = 0 := by
  obtain ⟨mx, hmx, hmem, hb⟩ := maxByCompletion_spec hne
  refine ⟨?_, ?_, rfl, rfl⟩
  · intro h0
    unfold binPredecessor
    rw [hmx]
    simp [h0]
  · intro h0
    refine ⟨mx, ?_, hmem, hb⟩
    unfold binPredecessor
    rw [hmx]
    simp [h0]

/-- C3, witness: a job with start time 0 is forced to the dummy predecessor
even though another job on the machine has completion time 7. -/
theorem c3_witness :
    binPredecessor "M" [⟨"X", "M", 1, 7, 0⟩] ⟨"C", "M", 0, 99, 0⟩ =
      some (dummyJob "M") :=
  (c3_bin_predecessor "M" [⟨"X", "M", 1, 7, 0⟩] ⟨"C", "M", 0, 99, 0⟩ (by decide)).1
    (by decide)

/-- C4, counterexample: one job alone on the single machine, with start time 1
and input completion time 100 and all-zero tables: the ordered-list evaluator
returns 0 (the predecessor filter is empty, so the dummy job is used) while
the dynamic-bin evaluator returns 100 (the live maximum is the job itself),
so the two policies disagree on a one-job-per-machine assignment. -/
theorem c4_counterexample :
    calculate_makespan ⟨["0", "A"], ["M"]⟩ [⟨"A", "M", 1, 100, 0⟩] [[0]]
        [[[0], [0]], [[0], [0]]] = some 0 ∧
      calculate_bin_makespan [⟨"A", "M", 1, 100, 0⟩] [[0]]
        [[[0], [0]], [[0], [0]]] [("M", 1)] = some 100 ∧
      (some (0 : ℤ)) ≠ some 100 := by
  decide

/-- C4 (amended): for every assignment that places exactly one job on each
machine and in which every job either has start time 0 or has its input
completion-time field at most its start time, the ordered-list and
dynamic-bin evaluators return the same makespan on the same jobs, tables,
job names and machine set.  (Without the extra condition the policies can
disagree, as the counterexample shows.) -/
theorem c4_amended (jobs : List JobResultInfo) (pt : List (List ℤ))
    (st : List (List (List ℤ))) (job_names machines : List String)
    (hdist : jobs.Pairwise (fun a b => a.machine ≠ b.machine))
    (hok : ∀ j ∈ jobs, j.start_time = 0 ∨ j.completion_time ≤ j.start_time) :
    calcMakespan jobs pt st job_names machines false =
      calcMakespan jobs pt st job_names machines true := by
  have hsing : ∀ m ∈ machineKeys jobs, ∃ j, jobsOn jobs m = [j] ∧
      (j.start_time = 0 ∨ j.completion_time ≤ j.start_time) := by
    intro m hm
    obtain ⟨j, hj, e⟩ := machineKeys_mem.mp hm
    refine ⟨j, ?_, hok j hj⟩
    rw [← e]
    exact filter_machine_singleton jobs hdist j hj
  obtain ⟨vs, gs₁, gs₂, h₁, h₂⟩ := runMachines_singletons
    (makeDict2 (job_names.drop 1) machines pt) (makeDict3 job_names job_names machines st)
    jobs (machineKeys jobs) hsing
  simp only [calcMakespan, h₁, h₂]

/-- C4, witness: the amended claim applied to a concrete two-machine
assignment with one job per machine. -/
theorem c4_witness :
    calcMakespan [⟨"A", "M", 0, 7, 0⟩, ⟨"B", "N", 2, 1, 0⟩] [[4], [6]]
        [[[0], [0]], [[0], [0]], [[0], [0]]] ["0", "A", "B"] ["M", "N"] false =
      calcMakespan [⟨"A", "M", 0, 7, 0⟩, ⟨"B", "N", 2, 1, 0⟩] [[4], [6]]
        [[[0], [0]], [[0], [0]], [[0], [0]]] ["0", "A", "B"] ["M", "N"] true :=
  c4_amended [⟨"A", "M", 0, 7, 0⟩, ⟨"B", "N", 2, 1, 0⟩] [[4], [6]]
    [[[0], [0]], [[0], [0]], [[0], [0]]] ["0", "A", "B"] ["M", "N"]
    (by decide) (by decide)

/-- C5, counterexample: two input orders of the same three jobs (P and Q share
input completion time 3) give different makespans in ordered-list mode: B's
predecessor is resolved by a maximum that breaks the tie by list position, so
setup Q→B = 7 is charged in one order and setup P→B = 0 in the other
(makespan 3 versus 10).  Permuting the input list with identical per-job
field values therefore can change the result. -/
theorem c5_counterexample :
    List.Perm [(⟨"P", "M", 1, 3, 0⟩ : JobResultInfo), ⟨"Q", "M", 2, 3, 0⟩,
        ⟨"B", "M", 5, 99, 0⟩]
      [⟨"Q", "M", 2, 3, 0⟩, ⟨"P", "M", 1, 3, 0⟩, ⟨"B", "M", 5, 99, 0⟩] ∧
    calcMakespan [⟨"P", "M", 1, 3, 0⟩, ⟨"Q", "M", 2, 3, 0⟩, ⟨"B", "M", 5, 99, 0⟩]
        [[0], [0], [0]]
        [[[0], [0], [0], [0]], [[0], [0], [0], [0]], [[0], [0], [0], [7]],
          [[0], [0], [0], [0]]]
        ["0", "P", "Q", "B"] ["M"] false = some 3 ∧
    calcMakespan [⟨"Q", "M", 2, 3, 0⟩, ⟨"P", "M", 1, 3, 0⟩, ⟨"B", "M", 5, 99, 0⟩]
        [[0], [0], [0]]
        [[[0], [0], [0], [0]], [[0], [0], [0], [0]], [[0], [0], [0], [7]],
          [[0], [0], [0], [0]]]
        ["0", "P", "Q", "B"] ["M"] false = some 10 ∧
    (some (3 : ℤ)) ≠ some 10 := by
  decide

/-- C5 (amended): in ordered-list mode, permuting the input job list while
keeping per-job field values identical yields the identical makespan,
provided that no two jobs sharing a machine have the same name or the same
input completion-time field (so the internal re-derivation of the order from
the snapshot is unambiguous).  With ties in the input completion times the
result can depend on list position, as the counterexample shows. -/
theorem c5_amended (jobs₁ jobs₂ : List JobResultInfo) (pt : List (List ℤ))
    (st : List (List (List ℤ))) (job_names machines : List String)
    (hperm : jobs₁.Perm jobs₂)
    (hnd : ∀ m : String, ((jobsOn jobs₁ m).map (fun j => j.name)).Nodup)
    (hcd : ∀ m : String, ((jobsOn jobs₁ m).map (fun j => j.completion_time)).Nodup) :
    calcMakespan jobs₁ pt st job_names machines false =
      calcMakespan jobs₂ pt st job_names machines false := by
  rw [calcMakespan_ordered_eq, calcMakespan_ordered_eq]
  have h1 : (machineKeys jobs₂).map
      (ordMachineMakespan (makeDict2 (job_names.drop 1) machines pt)
        (makeDict3 job_names job_names machines st) jobs₂) =
      (machineKeys jobs₂).map
      (ordMachineMakespan (makeDict2 (job_names.drop 1) machines pt)
        (makeDict3 job_names job_names machines st) jobs₁) :=
    List.map_congr_left fun m _ => ordMachineMakespan_perm hperm hnd hcd _ _ m
  rw [h1]
  exact pyMaxQ_perm ((machineKeys_perm hperm).map
    (ordMachineMakespan (makeDict2 (job_names.drop 1) machines pt)
      (makeDict3 job_names job_names machines st) jobs₁))

/-- C5, witness: the amended claim applied to a concrete two-job list and its
reversal, with distinct names and distinct input completion times. -/
theorem c5_witness :
    calcMakespan [⟨"A", "M", 1, 2, 0⟩, ⟨"B", "M", 3, 4, 0⟩] [[1], [1]]
        [[[0], [0], [0]], [[0], [0], [0]], [[0], [0], [0]]]
        ["0", "A", "B"] ["M"] false =
      calcMakespan [⟨"B", "M", 3, 4, 0⟩, ⟨"A", "M", 1, 2, 0⟩] [[1], [1]]
        [[[0], [0], [0]], [[0], [0], [0]], [[0], [0], [0]]]
        ["0", "A", "B"] ["M"] false :=
  c5_amended [⟨"A", "M", 1, 2, 0⟩, ⟨"B", "M", 3, 4, 0⟩]
    [⟨"B", "M", 3, 4, 0⟩, ⟨"A", "M", 1, 2, 0⟩] [[1], [1]]
    [[[0], [0], [0]], [[0], [0], [0]], [[0], [0], [0]]] ["0", "A", "B"] ["M"]
    (by decide)
    (fun m => List.Nodup.sublist (List.Sublist.map _ (List.filter_sublist _)) (by decide))
    (fun m => List.Nodup.sublist (List.Sublist.map _ (List.filter_sublist _)) (by decide))

/-- C6, counterexample: re-running `calculate_makespan` on the same job-ledger
entries is not idempotent: the first run overwrites the single job's start
time 3 with 2 and its completion time 2 with 7 (makespan 7); the second run
on the mutated entries returns makespan 5 ≠ 7. -/
theorem c6_counterexample :
    calcMakespan [⟨"A", "M", 3, 2, 0⟩] [[5]] [[[0], [0]], [[0], [0]]]
        ["0", "A"] ["M"] false = some 7 ∧
      finalLedger [⟨"A", "M", 3, 2, 0⟩] [[5]] [[[0], [0]], [[0], [0]]]
        ["0", "A"] ["M"] false = some [⟨"A", "M", 2, 7, 0⟩] ∧
      calcMakespan [⟨"A", "M", 2, 7, 0⟩] [[5]] [[[0], [0]], [[0], [0]]]
        ["0", "A"] ["M"] false = some 5 ∧
      (some (7 : ℤ)) ≠ some 5 := by
  decide

/-- C6 (amended): re-running `evaluate_ordered_schedule` on the same mutated
job-ledger entries (with the Time Tables unchanged) yields bit-identical
output whenever every job's start time is 0 and no job bears the reserved
dummy name "0": the pass then neither moves any start time nor makes any
completion time feed a later predecessor choice.  In general the first run's
in-place mutation of start and completion times can change the second run's
output, as the counterexample shows. -/
theorem c6_amended (jobs : List JobResultInfo) (pt : List (List ℤ))
    (st : List (List (List ℤ))) (job_names machines : List String)
    (h0 : ∀ j ∈ jobs, j.start_time = 0) (hn : ∀ j ∈ jobs, j.name ≠ "0")
    (final : List JobResultInfo)
    (hfin : finalLedger jobs pt st job_names machines false = some final) :
    calcMakespan final pt st job_names machines false =
      calcMakespan jobs pt st job_names machines false :=
  rerun_ordered_zstart jobs pt st job_names machines h0 hn final hfin

/-- C6, witness: the amended claim applied to a concrete one-job ledger with
start time 0; the first run produces completion time 5 and the second run
returns the same makespan. -/
theorem c6_witness :
    calcMakespan [⟨"A", "M", 0, 5, 0⟩] [[5]] [[[0], [0]], [[0], [0]]]
        ["0", "A"] ["M"] false =
      calcMakespan [⟨"A", "M", 0, 4, 0⟩] [[5]] [[[0], [0]], [[0], [0]]]
        ["0", "A"] ["M"] false :=
  c6_amended [⟨"A", "M", 0, 4, 0⟩] [[5]] [[[0], [0]], [[0], [0]]] ["0", "A"] ["M"]
    (by decide) (by decide) [⟨"A", "M", 0, 5, 0⟩] (by decide)

/-- C7: the ordered-list predecessor resolver `_find_last_completed` fails
(raises `ValueError`, modelled as `none`) if and only if the queried job's
name is absent from the job list handed to it; and when, during an
ordered-list pass, the job at some listed position bears a name absent from
the snapshot, the whole pass returns the error (`none`) — the failure is
propagated, never swallowed, and no partial result is returned. -/
theorem c7_resolver_failure :
    (∀ (n : String) (js : List JobResultInfo) (m : String),
      findLastCompleted n js m = none ↔ n ∉ js.map (fun j => j.name)) ∧
    (∀ (copy : List JobResultInfo) (m : String) (p : String → String → ℤ)
        (s : String → String → String → ℤ) (ps : List ℕ) (state : List JobResultInfo),
      (∃ i ∈ ps, ∃ job, state[i]? = some job ∧
        job.name ∉ copy.map (fun j => j.name)) →
      runSteps (orderedStep copy m p s) ps state = none) :=
  ⟨fun _ _ _ => findLastCompleted_eq_none_iff,
   fun copy m p s ps state h => runSteps_ordered_propagates copy m p s ps state h⟩

/-- C7, witness: the resolver fails on a name absent from the ledger, and a
pass whose snapshot misses the processed job's name returns the error. -/
theorem c7_witness :
    findLastCompleted "X" [⟨"A", "M", 0, 0, 0⟩] "M" = none ∧
      runSteps (orderedStep [] "M" (fun _ _ => 0) (fun _ _ _ => 0)) [0]
        [⟨"A", "M", 0, 0, 0⟩] = none :=
  ⟨(c7_resolver_failure.1 "X" [⟨"A", "M", 0, 0, 0⟩] "M").mpr (by decide),
   c7_resolver_failure.2 [] "M" (fun _ _ => 0) (fun _ _ _ => 0) [0]
     [⟨"A", "M", 0, 0, 0⟩] ⟨0, by decide, ⟨"A", "M", 0, 0, 0⟩, by decide, by decide⟩⟩

/-- C8: lookups in the Time Tables silently default to 0 for absent keys: a
(job, machine) pair whose job is not among the table's job names or whose
machine is not among the machines resolves to 0 in the processing-time
table, and likewise any (predecessor, successor, machine) triple with an
unknown component resolves to 0 in the setup-time table; the lookups are
total functions and never raise. -/
theorem c8_lookup_default (job_names machines : List String) (pt : List (List ℤ))
    (st : List (List (List ℤ))) (a b mname : String) :
    (a ∉ job_names.drop 1 ∨ mname ∉ machines →
      makeDict2 (job_names.drop 1) machines pt a mname = 0) ∧
    (a ∉ job_names ∨ b ∉ job_names ∨ mname ∉ machines →
      makeDict3 job_names job_names machines st a b mname = 0) := by
  constructor
  · rintro (h | h)
    · unfold makeDict2
      rw [dictGet_eq_none h]
    · unfold makeDict2
      cases hr : dictGet (job_names.drop 1) pt a with
      | none => rfl
      | some row =>
        dsimp only
        rw [dictGet_eq_none h]
        rfl
  · rintro (h | h | h)
    · unfold makeDict3
      rw [dictGet_eq_none h]
    · unfold makeDict3
      cases ha : dictGet job_names st a with
      | none => rfl
      | some t2 =>
        dsimp only
        rw [dictGet_eq_none h]
    · unfold makeDict3
      cases ha : dictGet job_names st a with
      | none => rfl
      | some t2 =>
        dsimp only
        cases hb : dictGet job_names t2 b with
        | none => rfl
        | some row =>
          dsimp only
          rw [dictGet_eq_none h]
          rfl

/-- C8, witness: a job name absent from the processing-time table and a
successor name absent from the setup-time table both resolve to 0 on
concrete tables containing only nonzero entries. -/
theorem c8_witness :
    makeDict2 (["0", "A"].drop 1) ["M"] [[5]] "Z" "M" = 0 ∧
      makeDict3 ["0", "A"] ["0", "A"] ["M"] [[[1], [1]], [[1], [1]]] "A" "B" "M" = 0 :=
  ⟨(c8_lookup_default ["0", "A"] ["M"] [[5]] [[[1], [1]], [[1], [1]]] "Z" "B" "M").1
      (Or.inl (by decide)),
   (c8_lookup_default ["0", "A"] ["M"] [[5]] [[[1], [1]], [[1], [1]]] "A" "B" "M").2
      (Or.inr (Or.inl (by decide)))⟩

/-- C9: if two runs of the propagator are given Time Tables whose lookups
differ only at machine M2, then on every other machine M1 the per-machine
pass produces the identical final job states — in particular identical
completion times for every job assigned to M1 — and the identical
per-machine finish time, in both policies. -/
theorem c9_cross_machine_independence (pt₁ pt₂ : List (List ℤ))
    (st₁ st₂ : List (List (List ℤ))) (job_names machines : List String) (M2 : String)
    (hp : ∀ a m, m ≠ M2 → makeDict2 (job_names.drop 1) machines pt₁ a m =
      makeDict2 (job_names.drop 1) machines pt₂ a m)
    (hs : ∀ a b m, m ≠ M2 → makeDict3 job_names job_names machines st₁ a b m =
      makeDict3 job_names job_names machines st₂ a b m)
    (M1 : String) (hM : M1 ≠ M2) (for_bin : Bool) (js : List JobResultInfo) :
    runMachine (makeDict2 (job_names.drop 1) machines pt₁)
        (makeDict3 job_names job_names machines st₁) for_bin M1 js =
      runMachine (makeDict2 (job_names.drop 1) machines pt₂)
        (makeDict3 job_names job_names machines st₂) for_bin M1 js ∧
    (runMachine (makeDict2 (job_names.drop 1) machines pt₁)
        (makeDict3 job_names job_names machines st₁) for_bin M1 js).map
        (fun g => pyMaxQ (g.map (fun j => j.completion_time))) =
      (runMachine (makeDict2 (job_names.drop 1) machines pt₂)
        (makeDict3 job_names job_names machines st₂) for_bin M1 js).map
        (fun g => pyMaxQ (g.map (fun j => j.completion_time))) := by
  have h := runMachine_congr M1 (fun a => hp a M1 hM) (fun a b => hs a b M1 hM) for_bin js
  exact ⟨h, by rw [h]⟩

/-- C9, witness: two processing-time tables that differ as data yield the
same pass on machine "M1" when their lookups agree away from "M2" (here the
job-name row list is empty, so both tables resolve every lookup to the
default 0). -/
theorem c9_witness :
    runMachine (makeDict2 (["0"].drop 1) ["M1"] [[3]])
        (makeDict3 ["0"] ["0"] ["M1"] [[[0]]]) false "M1" [⟨"A", "M1", 2, 1, 0⟩] =
      runMachine (makeDict2 (["0"].drop 1) ["M1"] [[9]])
        (makeDict3 ["0"] ["0"] ["M1"] [[[0]]]) false "M1" [⟨"A", "M1", 2, 1, 0⟩] :=
  (c9_cross_machine_independence [[3]] [[9]] [[[0]]] [[[0]]] ["0"] ["M1"] "M2"
    (fun _ _ _ => rfl) (fun _ _ _ _ => rfl) "M1" (by decide) false
    [⟨"A", "M1", 2, 1, 0⟩]).1

/-- C10: calling either evaluator on an empty job list raises (Python
`max()` of an empty sequence, modelled as `none`) instead of returning a
scalar makespan. -/
theorem c10_empty_jobs :
    (∀ (lp_instance : LPInstance) (pt : List (List ℤ)) (st : List (List (List ℤ))),
      calculate_makespan lp_instance [] pt st = none) ∧
    (∀ (pt : List (List ℤ)) (st : List (List (List ℤ)))
        (accelerators : List (String × ℕ)),
      calculate_bin_makespan [] pt st accelerators = none) :=
  ⟨fun _ _ _ => rfl, fun _ _ _ => rfl⟩
